import Mathlib

/-!
Verification of the Solactive index-model pipeline
(`index_model/index.py`, `index_model/index_utils.py`).

The pipeline works over a pandas DataFrame indexed by trading dates,
holding one price column per stock plus derived columns
(`EOM_Flag`, `{stock}_Weight`, `{stock}_Return`, `Index_Return`,
`Index_Level`).  We embed it in three layers:

* a pure columnar layer (dates, price/weight/return columns as lists)
  for the value-level claims;
* a `Frame` layer (named columns, `Except` for pandas `KeyError`s) for
  the error-handling and idempotence claims;
* a `Heap` layer (a store of frames) for the frame/no-mutation claims,
  reflecting that every utility starts with `df = df.copy()`.

Floating-point values are modelled exactly: finite floats as `ℚ`
(every value the program manipulates — prices from the CSV, the weights
0/0.25/0.5, ratios — is rational, and no claim depends on rounding),
and the IEEE specials `nan`/`inf`/`-inf` as explicit constructors,
because `pct_change` can produce them (missing cells, division by a
zero price) and `fillna(0)` only replaces `nan`.
-/

/-- A calendar date, as pandas timestamps compare: lexicographically by
year, month, day. -/
structure Date where
  y : Nat
  m : Nat
  d : Nat
deriving DecidableEq, Repr

/-- Lexicographic `≤` on dates (the pandas `DatetimeIndex` order). -/
def Date.le (a b : Date) : Bool :=
  Nat.blt a.y b.y ||
    (Nat.beq a.y b.y &&
      (Nat.blt a.m b.m || (Nat.beq a.m b.m && Nat.ble a.d b.d)))

/-- Strict `<` on dates. -/
def Date.lt (a b : Date) : Bool := !(Date.le b a)

/-- Two dates fall in the same `pd.Grouper(freq='M')` group iff they
share year and month. -/
def sameMonth (a b : Date) : Bool :=
  Nat.beq a.y b.y && Nat.beq a.m b.m

theorem Date.le_iff {a b : Date} :
    Date.le a b = true ↔
      (a.y < b.y ∨ (a.y = b.y ∧ (a.m < b.m ∨ (a.m = b.m ∧ a.d ≤ b.d)))) := by
  simp only [Date.le, Bool.or_eq_true, Bool.and_eq_true, Nat.blt_eq,
    Nat.ble_eq, Nat.beq_eq]

theorem Date.lt_iff {a b : Date} :
    Date.lt a b = true ↔
      (a.y < b.y ∨ (a.y = b.y ∧ (a.m < b.m ∨ (a.m = b.m ∧ a.d < b.d)))) := by
  simp only [Date.lt, Date.le, Bool.not_eq_true', Bool.or_eq_false_iff,
    Bool.and_eq_false_imp, ← Bool.not_eq_true, Nat.ble_eq, Nat.blt_eq,
    Bool.or_eq_true, Bool.and_eq_true, Nat.beq_eq]
  omega

theorem Date.le_total (a b : Date) :
    Date.le a b = true ∨ Date.le b a = true := by
  simp only [Date.le_iff]
  omega

theorem Date.le_trans {a b c : Date} (h1 : Date.le a b = true)
    (h2 : Date.le b c = true) : Date.le a c = true := by
  simp only [Date.le_iff] at *
  omega

theorem Date.le_antisymm {a b : Date} (h1 : Date.le a b = true)
    (h2 : Date.le b a = true) : a = b := by
  simp only [Date.le_iff] at *
  cases a; cases b
  simp_all
  omega

theorem Date.le_refl (a : Date) : Date.le a a = true := by
  simp [Date.le_iff]

theorem Date.lt_of_le_ne {a b : Date} (h1 : Date.le a b = true)
    (h2 : a ≠ b) : Date.lt a b = true := by
  simp only [Date.lt]
  cases hba : Date.le b a
  · rfl
  · exact absurd (Date.le_antisymm h1 hba) h2

theorem Date.ne_of_lt {a b : Date} (h : Date.lt a b = true) : a ≠ b := by
  rintro rfl
  simp [Date.lt, Date.le_refl] at h

theorem Date.le_of_lt {a b : Date} (h : Date.lt a b = true) :
    Date.le a b = true := by
  simp only [Date.lt_iff] at h
  simp only [Date.le_iff]
  omega

/-- A float value: a finite rational, or one of the IEEE specials that
the pipeline can actually produce. -/
inductive FV where
  | num (q : ℚ)
  | nan
  | inf
  | ninf
deriving DecidableEq, Repr

/-- IEEE addition on `FV` (exact on finite values). -/
def FV.add : FV → FV → FV
  | num a, num b => num (a + b)
  | num _, nan => nan
  | num _, inf => inf
  | num _, ninf => ninf
  | nan, _ => nan
  | inf, num _ => inf
  | inf, nan => nan
  | inf, inf => inf
  | inf, ninf => nan
  | ninf, num _ => ninf
  | ninf, nan => nan
  | ninf, inf => nan
  | ninf, ninf => ninf

/-- IEEE multiplication on `FV` (exact on finite values). -/
def FV.mul : FV → FV → FV
  | num a, num b => num (a * b)
  | num _, nan => nan
  | num a, inf => if 0 < a then inf else if a < 0 then ninf else nan
  | num a, ninf => if 0 < a then ninf else if a < 0 then inf else nan
  | nan, _ => nan
  | inf, num b => if 0 < b then inf else if b < 0 then ninf else nan
  | inf, nan => nan
  | inf, inf => inf
  | inf, ninf => ninf
  | ninf, num b => if 0 < b then ninf else if b < 0 then inf else nan
  | ninf, nan => nan
  | ninf, inf => ninf
  | ninf, ninf => inf

/-! ## `calculate_eom_flag` (index_utils.py lines 8–20)

`df.groupby(pd.Grouper(freq='M'))` groups the rows by calendar month;
for each non-empty group the row at `group.index.max()` gets flag 1.
So a date is flagged iff it is `≥` every date of its month present in
the calendar. -/

/-- `x` is the latest date of its month present in `cal`. -/
def isEomIn (cal : List Date) (x : Date) : Bool :=
  cal.all (fun e => !sameMonth x e || Date.le e x)

/-- Embedding of `calculate_eom_flag`: the boolean `EOM_Flag` column,
positionally aligned with the calendar. -/
def calculate_eom_flag (cal : List Date) : List Bool :=
  cal.map (isEomIn cal)

/-! ## `calculate_daily_returns` (index_utils.py lines 82–95)

For each stock, `df[stock].pct_change()` — whose default
`fill_method='pad'` (pandas 1.x/2.x, which this code targets: it also
uses the pre-3.0 `freq='M'` alias) forward-fills missing prices before
taking `filled[t]/filled[t-1] - 1` — followed by `fillna(0)` on the
return columns, which replaces `NaN` (but not `±inf`) by `0`.

A price cell is `some q` for a finite price, `none` for a missing
(`NaN`) cell. -/

/-- Forward-fill (`fillna(method='pad')`) with an explicit carry. -/
def ffillAux : Option ℚ → List (Option ℚ) → List (Option ℚ)
  | _, [] => []
  | prev, none :: rest => prev :: ffillAux prev rest
  | _, some q :: rest => some q :: ffillAux (some q) rest

/-- Forward-fill of a price column. -/
def ffill (l : List (Option ℚ)) : List (Option ℚ) := ffillAux none l

/-- One `pct_change` cell: `cur/prev - 1` with IEEE semantics
(`NaN` if either operand is missing; `±inf`/`NaN` on division by 0). -/
def pctCell (prev cur : Option ℚ) : FV :=
  match prev, cur with
  | some b, some a =>
      if b = 0 then
        (if 0 < a then FV.inf else if a < 0 then FV.ninf else FV.nan)
      else FV.num (a / b - 1)
  | _, _ => FV.nan

/-- `filled / filled.shift(1) - 1`, cell by cell; the first cell has no
predecessor, hence `NaN`. -/
def pctList : Option ℚ → List (Option ℚ) → List FV
  | _, [] => []
  | prev, c :: rest => pctCell prev c :: pctList c rest

/-- `pct_change()` with its default forward-fill. -/
def pctChangePad (ps : List (Option ℚ)) : List FV :=
  pctList none (ffill ps)

/-- `fillna(0)`: replaces `NaN` by `0`, leaves everything else. -/
def fillnaZero (xs : List FV) : List FV :=
  xs.map (fun v => if v = FV.nan then FV.num 0 else v)

/-- Embedding of `calculate_daily_returns` for one stock's price
column. -/
def calculate_daily_returns_col (ps : List (Option ℚ)) : List FV :=
  fillnaZero (pctChangePad ps)

/-- Embedding of `calculate_daily_returns` for the whole table
(stock-major: one return column per price column). -/
def calculate_daily_returns (table : List (List (Option ℚ))) : List (List FV) :=
  table.map calculate_daily_returns_col

/-! ## `IndexModel.calculate_weights` (index.py lines 38–80)

`df['Period'] = df['EOM_Flag'].cumsum()`; for each flagged row, stocks
are sorted by that row's prices with `sort_values(ascending=False)`
(missing prices sort *last*, `na_position='last'`, but are **not**
dropped), the first three index labels get weights 0.5/0.25/0.25, and
the assignment is written to every row of the same `Period`.

Stocks are identified positionally (`0, …, n-1` in column order); a
price row is date-major (`row.getD s none` = price of stock `s`). -/

/-- Stable insertion of `x` into a list, before the first element `y`
with `le x y`. -/
def insertBy (le : Nat → Nat → Bool) (x : Nat) : List Nat → List Nat
  | [] => [x]
  | y :: ys => if le x y then x :: y :: ys else y :: insertBy le x ys

/-- Stable insertion sort (structural, hence kernel-computable). -/
def sortBy (le : Nat → Nat → Bool) : List Nat → List Nat
  | [] => []
  | x :: xs => insertBy le x (sortBy le xs)

/-- The `sort_values(ascending=False)` comparator: `i` may precede `j`
iff `i`'s price is defined and `≥` `j`'s, or `j`'s price is missing;
two missing prices are interchangeable. -/
def priceLe (row : List (Option ℚ)) (i j : Nat) : Bool :=
  match row.getD i none, row.getD j none with
  | some a, some b => decide (b ≤ a)
  | some _, none => true
  | none, some _ => false
  | none, none => true

/-- `row[stocks].sort_values(ascending=False).index`: the stock indices
sorted by price descending, missing prices last. -/
def rankStocks (n : Nat) (row : List (Option ℚ)) : List Nat :=
  sortBy (priceLe row) (List.range n)

/-- The weight row built for one anchor: start from all zeros
(`df.loc[period_mask, weight_cols] = 0`), then give `top3[0] ↦ 0.5`,
`top3[1] ↦ 0.25`, `top3[2] ↦ 0.25` when those ranks exist. -/
def weightRow (n : Nat) (top3 : List Nat) : List ℚ :=
  let w0 := List.replicate n 0
  let w1 := if 0 < top3.length then w0.set (top3.getD 0 0) (1/2) else w0
  let w2 := if 1 < top3.length then w1.set (top3.getD 1 0) (1/4) else w1
  if 2 < top3.length then w2.set (top3.getD 2 0) (1/4) else w2

/-- `df['EOM_Flag'].cumsum()`: the `Period` column. -/
def cumsumFlags (flags : List Bool) : List Nat :=
  (List.range flags.length).map (fun i => (flags.take (i + 1)).count true)

/-- The flagged row positions, in calendar order (`iterrows` order of
`rebalance_rows`). -/
def anchors (flags : List Bool) : List Nat :=
  (List.range flags.length).filter (fun a => flags.getD a false)

/-- `df.loc[mask, weight_cols] = wrow`: overwrite the weight row of
every position satisfying `cond`. -/
def maskSet (cond : Nat → Bool) (v : List ℚ) (W : List (List ℚ)) :
    List (List ℚ) :=
  (List.range W.length).map (fun i => if cond i then v else W.getD i [])

/-- Embedding of `IndexModel.calculate_weights`: date-major weight rows
(one `List ℚ` of length `n` per calendar position). -/
def calculate_weights (n : Nat) (prices : List (List (Option ℚ)))
    (flags : List Bool) : List (List ℚ) :=
  let periods := cumsumFlags flags
  let init := prices.map (fun _ => List.replicate n (0 : ℚ))
  (anchors flags).foldl
    (fun W a =>
      maskSet (fun i => periods.getD i 0 == periods.getD a 0)
        (weightRow n ((rankStocks n (prices.getD a [])).take 3)) W)
    init

/-! ## `calculate_index_return` (index_utils.py lines 24–49)

`Index_Return` starts as `0.0` everywhere; for `i` in `range(2, len)`,
row `i` gets `np.dot(weights at i-2, returns at i)`; finally the first
two rows are (redundantly) reset to 0. The loop reads only the weight
and return columns, never the column it is writing. -/

/-- `np.dot` of a weight row and a return row. -/
def dotFV (ws rs : List FV) : FV :=
  (List.zipWith FV.mul ws rs).foldl FV.add (FV.num 0)

/-- `df.loc[df.index[:2], 'Index_Return'] = 0.0` (no-op on shorter
columns, as `List.set` is out of range). -/
def setFirstTwoZero (c : List FV) : List FV :=
  (c.set 0 (FV.num 0)).set 1 (FV.num 0)

/-- Embedding of `calculate_index_return`, value level: `W` and `R` are
the date-major weight and return rows. -/
def calculate_index_return (W : List (List ℚ)) (R : List (List FV)) :
    List FV :=
  let len := R.length
  let col :=
    (List.range' 2 (len - 2)).foldl
      (fun c i =>
        c.set i (dotFV ((W.getD (i - 2) []).map FV.num) (R.getD i [])))
      (List.replicate len (FV.num 0))
  setFirstTwoZero col

/-! ## `calculate_index_level` (index_utils.py lines 53–78)

`start_idx = df.index.get_indexer([start_date], method='bfill')[0]`:
the first calendar position at or after `start_date` (the index must be
sorted for `bfill`), or `-1` — mapped to `len(df) - 1` — when no such
position exists.  `Index_Level` is initialised to `100.0` everywhere,
re-set to 100.0 at `start_idx`, then compounded forward. -/

/-- `get_indexer([sd], method='bfill')` proper: the position of the
first date `≥ sd`, `none` standing for the `-1` it returns when no such
date exists. -/
def bfillIdx (sd : Date) : List Date → Option Nat
  | [] => none
  | x :: rest =>
      if Date.le sd x then some 0 else (bfillIdx sd rest).map (· + 1)

/-- `get_indexer([sd], method='bfill')` followed by the `-1 ↦ len-1`
fix-up. -/
def resolveStart (dates : List Date) (sd : Date) : Nat :=
  match bfillIdx sd dates with
  | some i => i
  | none => dates.length - 1

/-- Embedding of `calculate_index_level`: `ret` is the `Index_Return`
column, `sd` the (optional) start date. -/
def calculate_index_level (dates : List Date) (ret : List FV)
    (sd : Option Date) : List FV :=
  let len := dates.length
  let start := match sd with
    | none => 0
    | some d => resolveStart dates d
  let init := (List.replicate len (FV.num 100)).set start (FV.num 100)
  (List.range' (start + 1) (len - (start + 1))).foldl
    (fun lv i =>
      lv.set i (FV.mul (lv.getD (i - 1) FV.nan)
        (FV.add (FV.num 1) (ret.getD i FV.nan))))
    init

/-! ## Frame layer

A pandas `DataFrame` as the pipeline sees it: a date index plus named
columns.  Column names follow the program's scheme (`{stock}`,
`{stock}_Return`, `{stock}_Weight`, `EOM_Flag`, `Index_Return`,
`Index_Level`); since the stock columns are exactly those starting with
`'Stock_'`, the families are disjoint and the scheme is injective, which
the constructor form makes structural. -/

inductive ColName where
  | price (s : String)
  | ret (s : String)
  | weight (s : String)
  | eom
  | indexReturn
  | indexLevel
deriving DecidableEq, Repr

/-- The literal pandas column label. -/
def ColName.str : ColName → String
  | .price s => s
  | .ret s => s ++ "_Return"
  | .weight s => s ++ "_Weight"
  | .eom => "EOM_Flag"
  | .indexReturn => "Index_Return"
  | .indexLevel => "Index_Level"

structure Frame where
  index : List Date
  cols : List (ColName × List FV)
deriving DecidableEq, Repr

instance : Inhabited Frame := ⟨⟨[], []⟩⟩

/-- `df[c]` as an `Option` (a missing column is a pandas `KeyError`). -/
def Frame.findCol (f : Frame) (c : ColName) : Option (List FV) :=
  (f.cols.find? (fun p => p.1 == c)).map (fun p => p.2)

/-- `df[c] = v`: overwrite in place when the column exists, else append
it on the right — pandas column-assignment semantics. -/
def Frame.setCol (f : Frame) (c : ColName) (v : List FV) : Frame :=
  { f with cols :=
      if (f.cols.find? (fun p => p.1 == c)).isSome then
        f.cols.map (fun p => if p.1 == c then (c, v) else p)
      else f.cols ++ [(c, v)] }

/-- The pandas errors the pipeline can raise. -/
inductive PdError where
  | keyError (msg : String)
deriving DecidableEq, Repr

/-- `df.loc[date, c]` for an in-range row of an existing column. -/
def readCell (df : Frame) (c : ColName) (i : Nat) : Option FV :=
  (df.findCol c).map (fun col => col.getD i FV.nan)

/-- The T-2 loop of `calculate_index_return`, threading the
`Index_Return` column (the only thing the loop writes; it reads only
the weight and return columns of `df`).  `df.loc[t2, weight_cols]`
raises a `KeyError` when any requested column is absent. -/
def irLoopCol (df : Frame) (stocks : List String) :
    List Nat → List FV → Except PdError (List FV)
  | [], col => .ok col
  | i :: rest, col =>
      match (stocks.map ColName.weight).mapM (fun c => readCell df c (i - 2)),
            (stocks.map ColName.ret).mapM (fun c => readCell df c i) with
      | some ws, some rs => irLoopCol df stocks rest (col.set i (dotFV ws rs))
      | _, _ => .error (.keyError "not in index")

/-- Embedding of `calculate_index_return` at the frame level, with its
error behaviour: the explicit guard raises on the first missing
*return* column; missing *weight* columns only surface as the pandas
`KeyError` inside the loop body, which runs only when `len(df) ≥ 3`. -/
def calculate_index_return_frame (df : Frame) (stocks : List String) :
    Except PdError Frame :=
  let len := df.index.length
  let df1 := df.setCol .indexReturn (List.replicate len (FV.num 0))
  match (stocks.map ColName.ret).find? (fun c => (df1.findCol c).isNone) with
  | some c =>
      .error (.keyError ("Column " ++ c.str ++
        " not found in DataFrame. Calculate daily returns first."))
  | none =>
      match irLoopCol df1 stocks (List.range' 2 (len - 2))
          (List.replicate len (FV.num 0)) with
      | .error e => .error e
      | .ok col => .ok (df1.setCol .indexReturn (setFirstTwoZero col))

/-- Embedding of `calculate_index_level` at the frame level:
`1 + df['Index_Return']` raises if the column is absent; the new
`Index_Level` column is the pure compounding result. -/
def calculate_index_level_frame (df : Frame) (sd : Option Date) :
    Except PdError Frame :=
  match df.findCol .indexReturn with
  | none => .error (.keyError "Index_Return")
  | some ret => .ok (df.setCol .indexLevel (calculate_index_level df.index ret sd))

/-- `df.loc[sd:ed, ['Index_Level']]` on the sorted date index: the
(date, level) pairs with `sd ≤ date ≤ ed`. -/
def sliceLevels (dates : List Date) (lvl : List FV) (sd ed : Date) :
    List (Date × FV) :=
  (dates.zip lvl).filter (fun p => Date.le sd p.1 && Date.le p.1 ed)

/-- Embedding of `IndexModel.calc_index_level`: recompute
`Index_Return`, recompute `Index_Level`, slice.  Returns the updated
`self.df` together with the result series. -/
def calc_index_level (df : Frame) (stocks : List String) (sd ed : Date) :
    Except PdError (Frame × List (Date × FV)) :=
  match calculate_index_return_frame df stocks with
  | .error e => .error e
  | .ok df1 =>
      match calculate_index_level_frame df1 (some sd) with
      | .error e => .error e
      | .ok df2 =>
          .ok (df2, sliceLevels df2.index ((df2.findCol .indexLevel).getD []) sd ed)

/-! ## Heap layer

Python object semantics for the frame claims: a heap of frames,
references as positions.  Every utility starts with `df = df.copy()`
(a deep copy — a fresh object) and then mutates only the copy; we
model the copy as appending a fresh frame and the body as replacing
that fresh slot with the fully mutated frame. -/

abbrev Heap := List Frame

/-- Finite-price view of a stored price cell (CSV prices are numbers
or missing; `NaN` is the only special that occurs in a price column). -/
def toPrice : FV → Option ℚ
  | .num q => some q
  | _ => none

/-- Heap version of `calculate_eom_flag`: copy, then write the
`EOM_Flag` 0/1 column on the copy. -/
def calculate_eom_flag_h (h : Heap) (r : Nat) : Heap × Nat :=
  let df := h.getD r default
  let df2 := df.setCol .eom
    ((calculate_eom_flag df.index).map (fun b => FV.num (if b then 1 else 0)))
  ((h ++ [df]).set h.length df2, h.length)

/-- Heap version of `calculate_daily_returns`: copy, write one
`pct_change` column per stock, then overwrite them with their
`fillna(0)`. -/
def calculate_daily_returns_h (h : Heap) (r : Nat) (stocks : List String) :
    Heap × Nat :=
  let df := h.getD r default
  let dfA := stocks.foldl
    (fun acc s =>
      acc.setCol (.ret s)
        (pctChangePad (((acc.findCol (.price s)).getD []).map toPrice)))
    df
  let df2 := stocks.foldl
    (fun acc s =>
      acc.setCol (.ret s) (fillnaZero ((acc.findCol (.ret s)).getD [])))
    dfA
  ((h ++ [df]).set h.length df2, h.length)

/-- Heap version of `calculate_index_return`: copy, then run the frame
body on the copy; an exception leaves the heap as the caller held it. -/
def calculate_index_return_h (h : Heap) (r : Nat) (stocks : List String) :
    Except PdError (Heap × Nat) :=
  let df := h.getD r default
  match calculate_index_return_frame df stocks with
  | .error e => .error e
  | .ok df2 => .ok ((h ++ [df]).set h.length df2, h.length)

/-- Heap version of `calculate_index_level`. -/
def calculate_index_level_h (h : Heap) (r : Nat) (sd : Option Date) :
    Except PdError (Heap × Nat) :=
  let df := h.getD r default
  match calculate_index_level_frame df sd with
  | .error e => .error e
  | .ok df2 => .ok ((h ++ [df]).set h.length df2, h.length)

/-! ## Generic list lemmas -/

theorem getD_set_split {α : Type} (l : List α) (i j : Nat) (v d : α) :
    (l.set i v).getD j d = if i = j ∧ j < l.length then v else l.getD j d := by
  by_cases hij : i = j
  · subst hij
    by_cases hi : i < l.length
    · simp [List.getD_eq_getElem?_getD, List.getElem?_set_self hi, hi]
    · rw [List.set_eq_of_length_le (Nat.le_of_not_lt hi)]
      simp [hi]
  · simp [List.getD_eq_getElem?_getD, List.getElem?_set_ne hij, hij]

theorem getD_replicate_split {α : Type} (n : Nat) (a d : α) (j : Nat) :
    (List.replicate n a).getD j d = if j < n then a else d := by
  simp only [List.getD_eq_getElem?_getD, List.getElem?_replicate]
  split <;> simp

theorem foldl_set_range'_length {α : Type} (f : Nat → α) :
    ∀ (b a : Nat) (c : List α),
    ((List.range' a b).foldl (fun c i => c.set i (f i)) c).length = c.length := by
  intro b
  induction b with
  | zero => intro a c; simp
  | succ n ih =>
      intro a c
      rw [List.range'_succ, List.foldl_cons, ih, List.length_set]

theorem foldl_set_range'_getD {α : Type} (f : Nat → α) (d : α) :
    ∀ (b a : Nat) (c : List α) (j : Nat),
    ((List.range' a b).foldl (fun c i => c.set i (f i)) c).getD j d =
      if a ≤ j ∧ j < a + b ∧ j < c.length then f j else c.getD j d := by
  intro b
  induction b with
  | zero =>
      intro a c j
      rw [List.range'_zero, List.foldl_nil, if_neg (by omega)]
  | succ n ih =>
      intro a c j
      rw [List.range'_succ, List.foldl_cons, ih]
      rw [List.length_set, getD_set_split]
      by_cases h1 : a + 1 ≤ j ∧ j < a + 1 + n ∧ j < c.length
      · have h2 : a ≤ j ∧ j < a + (n + 1) ∧ j < c.length := by omega
        simp [h1, h2]
      · simp only [h1, if_false]
        by_cases h3 : a = j ∧ j < c.length
        · have h4 : a ≤ j ∧ j < a + (n + 1) ∧ j < c.length := by omega
          simp [h3, h4]
        · have h4 : ¬(a ≤ j ∧ j < a + (n + 1) ∧ j < c.length) := by omega
          simp [h3, h4]

/-- C2: for every calendar position `i ≥ 2`, the Index Return equals the
dot product of the weight row in effect two positions earlier with the
return row at `i`; the first two positions are exactly 0 for any
input. -/
theorem index_return_t2_spec (W : List (List ℚ)) (R : List (List FV))
    (i : Nat) (hi : i < R.length) :
    (calculate_index_return W R).getD i FV.nan =
      if i < 2 then FV.num 0
      else dotFV ((W.getD (i - 2) []).map FV.num) (R.getD i []) := by
  unfold calculate_index_return setFirstTwoZero
  rw [getD_set_split, List.length_set, foldl_set_range'_length, List.length_replicate,
    getD_set_split, foldl_set_range'_length, List.length_replicate,
    foldl_set_range'_getD, List.length_replicate, getD_replicate_split]
  by_cases h2 : i < 2
  · interval_cases i <;> simp [hi]
  · have h0 : ¬(1 = i) := by omega
    have h1 : ¬(0 = i) := by omega
    have h3 : 2 ≤ i ∧ i < 2 + (R.length - 2) ∧ i < R.length := by omega
    simp [h0, h1, h2, h3]

/-- Witness for C2 at a concrete input. -/
theorem index_return_t2_spec_witness :
    (calculate_index_return [[1], [1], [1]]
      [[FV.num 0], [FV.num 0], [FV.num 5]]).getD 2 FV.nan = FV.num 5 := by
  have h := index_return_t2_spec [[1], [1], [1]]
    [[FV.num 0], [FV.num 0], [FV.num 5]] 2 (by decide)
  rw [h]
  norm_num [dotFV, FV.mul, FV.add]

/-! ## C3 infrastructure -/

theorem bfillIdx_some {sd : Date} :
    ∀ {l : List Date} {i : Nat}, bfillIdx sd l = some i →
      i < l.length ∧ Date.le sd (l.getD i ⟨0,0,0⟩) = true ∧
        ∀ j, j < i → Date.le sd (l.getD j ⟨0,0,0⟩) = false := by
  intro l
  induction l with
  | nil => intro i h; simp [bfillIdx] at h
  | cons x rest ih =>
      intro i h
      rw [bfillIdx] at h
      by_cases hx : Date.le sd x = true
      · rw [if_pos hx] at h
        cases h
        exact ⟨by simp, by simpa using hx, fun j hj => by omega⟩
      · rw [if_neg hx] at h
        match hrec : bfillIdx sd rest with
        | none => rw [hrec] at h; simp at h
        | some k =>
            rw [hrec] at h
            simp only [Option.map_some'] at h
            cases h
            obtain ⟨hk1, hk2, hk3⟩ := ih hrec
            refine ⟨by simpa using hk1, by simpa using hk2, ?_⟩
            intro j hj
            cases j with
            | zero => simpa using (Bool.not_eq_true _).mp hx
            | succ j' =>
                simp only [List.getD_cons_succ]
                exact hk3 j' (by omega)

theorem bfillIdx_none {sd : Date} :
    ∀ {l : List Date}, bfillIdx sd l = none →
      ∀ j, j < l.length → Date.le sd (l.getD j ⟨0,0,0⟩) = false := by
  intro l
  induction l with
  | nil => intro _ j hj; simp at hj
  | cons x rest ih =>
      intro h j hj
      rw [bfillIdx] at h
      by_cases hx : Date.le sd x = true
      · rw [if_pos hx] at h; simp at h
      · rw [if_neg hx] at h
        cases j with
        | zero => simpa using (Bool.not_eq_true _).mp hx
        | succ j' =>
            simp only [List.getD_cons_succ]
            exact ih (by simpa using h) j' (by simpa using hj)

/-- The forward-compounded level series: 100 up to the start position
`s`, then multiplied by the growth factor at each later position. -/
def levelVal (gf : Nat → FV) (s : Nat) : Nat → FV
  | 0 => FV.num 100
  | j + 1 => if j + 1 ≤ s then FV.num 100 else FV.mul (levelVal gf s j) (gf (j + 1))

theorem levelVal_succ (gf : Nat → FV) (s j : Nat) :
    levelVal gf s (j + 1) =
      if j + 1 ≤ s then FV.num 100 else FV.mul (levelVal gf s j) (gf (j + 1)) := rfl

theorem compound_fold (ret : List FV) (s : Nat) :
    ∀ (b a : Nat) (c : List FV), 0 < a → s < a →
    (∀ j, j < a → j < c.length →
      c.getD j FV.nan = levelVal (fun i => FV.add (FV.num 1) (ret.getD i FV.nan)) s j) →
    (∀ j, a ≤ j → j < c.length → c.getD j FV.nan = FV.num 100) →
    (((List.range' a b).foldl
        (fun lv i => lv.set i (FV.mul (lv.getD (i - 1) FV.nan)
          (FV.add (FV.num 1) (ret.getD i FV.nan)))) c).length = c.length ∧
      ∀ j, j < a + b → j < c.length →
        ((List.range' a b).foldl
          (fun lv i => lv.set i (FV.mul (lv.getD (i - 1) FV.nan)
            (FV.add (FV.num 1) (ret.getD i FV.nan)))) c).getD j FV.nan =
          levelVal (fun i => FV.add (FV.num 1) (ret.getD i FV.nan)) s j) := by
  intro b
  induction b with
  | zero =>
      intro a c _ _ hpre _
      refine ⟨by simp, ?_⟩
      intro j hj hjc
      rw [List.range'_zero, List.foldl_nil]
      exact hpre j (by omega) hjc
  | succ n ih =>
      intro a c ha hs hpre hsuf
      rw [List.range'_succ, List.foldl_cons]
      set c' := c.set a (FV.mul (c.getD (a - 1) FV.nan)
        (FV.add (FV.num 1) (ret.getD a FV.nan))) with hc'
      have hc'len : c'.length = c.length := by
        rw [hc']; exact List.length_set c a _
      by_cases hac : a < c.length
      · have hval : c'.getD a FV.nan =
            levelVal (fun i => FV.add (FV.num 1) (ret.getD i FV.nan)) s a := by
          rw [hc', getD_set_split, if_pos ⟨rfl, hac⟩]
          have h1 : c.getD (a - 1) FV.nan =
              levelVal (fun i => FV.add (FV.num 1) (ret.getD i FV.nan)) s (a - 1) :=
            hpre (a - 1) (by omega) (by omega)
          rw [h1]
          have ha1 : (a - 1) + 1 = a := by omega
          conv_rhs => rw [← ha1]
          rw [levelVal_succ, if_neg (by omega), ha1]
        obtain ⟨ihlen, ihget⟩ := ih (a + 1) c' (by omega) (by omega)
          (by
            intro j hj hjc
            rw [hc'len] at hjc
            by_cases hja : j = a
            · subst hja; exact hval
            · rw [hc', getD_set_split, if_neg (by omega)]
              exact hpre j (by omega) hjc)
          (by
            intro j hj hjc
            rw [hc'len] at hjc
            rw [hc', getD_set_split, if_neg (by omega)]
            exact hsuf j (by omega) hjc)
        refine ⟨ihlen.trans hc'len, ?_⟩
        intro j hj hjc
        exact ihget j (by omega) (by rw [hc'len]; exact hjc)
      · have hset : c' = c := by
          rw [hc']; exact List.set_eq_of_length_le (by omega)
        rw [hset]
        obtain ⟨ihlen, ihget⟩ := ih (a + 1) c (by omega) (by omega)
          (fun j hj hjc => hpre j (by omega) hjc)
          (fun j hj hjc => by omega)
        refine ⟨ihlen, ?_⟩
        intro j hj hjc
        exact ihget j (by omega) hjc

theorem levelVal_of_le (gf : Nat → FV) (s j : Nat) (h : j ≤ s) :
    levelVal gf s j = FV.num 100 := by
  cases j with
  | zero => rfl
  | succ j' => rw [levelVal_succ, if_pos h]

theorem calculate_index_level_getD (dates : List Date) (ret : List FV) (sd : Date)
    (j : Nat) (hj : j < dates.length) :
    (calculate_index_level dates ret (some sd)).getD j FV.nan =
      levelVal (fun i => FV.add (FV.num 1) (ret.getD i FV.nan))
        (resolveStart dates sd) j := by
  unfold calculate_index_level
  dsimp only
  set s := resolveStart dates sd with hs
  have hinitlen : ((List.replicate dates.length (FV.num 100)).set s (FV.num 100)).length
      = dates.length := by
    rw [List.length_set, List.length_replicate]
  obtain ⟨_, hget⟩ := compound_fold ret s (dates.length - (s + 1)) (s + 1)
    ((List.replicate dates.length (FV.num 100)).set s (FV.num 100))
    (by omega) (by omega)
    (by
      intro k hk hkc
      rw [hinitlen] at hkc
      rw [getD_set_split, getD_replicate_split, levelVal_of_le _ _ _ (by omega)]
      simp [hkc])
    (by
      intro k hk hkc
      rw [hinitlen] at hkc
      rw [getD_set_split, getD_replicate_split]
      simp [hkc])
  exact hget j (by omega) (by rw [hinitlen]; exact hj)

theorem resolveStart_lt (dates : List Date) (sd : Date) (hne : dates ≠ []) :
    resolveStart dates sd < dates.length := by
  unfold resolveStart
  have hlen : 0 < dates.length := List.length_pos.mpr hne
  match h : bfillIdx sd dates with
  | some i => exact (bfillIdx_some h).1
  | none =>
      show dates.length - 1 < dates.length
      omega

/-- C3: the compounder resolves the start date to the first calendar
position at or after it (snapping to the last position when none
exists), sets the level there to exactly 100.0, and compounds every
later position by `level[t] = level[t-1] * (1 + Index_Return[t])`. -/
theorem index_level_compound_spec (dates : List Date) (ret : List FV) (sd : Date)
    (hne : dates ≠ [])
    (hsort : dates.Pairwise (fun a b => Date.lt a b = true)) :
    (calculate_index_level dates ret (some sd)).length = dates.length ∧
    resolveStart dates sd < dates.length ∧
    ((∃ j, j < dates.length ∧ Date.le sd (dates.getD j ⟨0,0,0⟩) = true) →
      (Date.le sd (dates.getD (resolveStart dates sd) ⟨0,0,0⟩) = true ∧
       ∀ j, j < dates.length → Date.le sd (dates.getD j ⟨0,0,0⟩) = true →
         Date.le (dates.getD (resolveStart dates sd) ⟨0,0,0⟩)
           (dates.getD j ⟨0,0,0⟩) = true)) ∧
    ((∀ j, j < dates.length → Date.le sd (dates.getD j ⟨0,0,0⟩) = false) →
      resolveStart dates sd = dates.length - 1) ∧
    (calculate_index_level dates ret (some sd)).getD (resolveStart dates sd) FV.nan
      = FV.num 100 ∧
    (∀ t, resolveStart dates sd < t → t < dates.length →
      (calculate_index_level dates ret (some sd)).getD t FV.nan =
        FV.mul ((calculate_index_level dates ret (some sd)).getD (t - 1) FV.nan)
          (FV.add (FV.num 1) (ret.getD t FV.nan))) := by
  have hrlt := resolveStart_lt dates sd hne
  refine ⟨?_, hrlt, ?_, ?_, ?_, ?_⟩
  · -- length
    unfold calculate_index_level
    dsimp only
    obtain ⟨hlen, _⟩ := compound_fold ret (resolveStart dates sd)
      (dates.length - (resolveStart dates sd + 1)) (resolveStart dates sd + 1)
      ((List.replicate dates.length (FV.num 100)).set (resolveStart dates sd) (FV.num 100))
      (by omega) (by omega)
      (by
        intro k hk hkc
        rw [List.length_set, List.length_replicate] at hkc
        rw [getD_set_split, getD_replicate_split, levelVal_of_le _ _ _ (by omega)]
        simp [hkc])
      (by
        intro k hk hkc
        rw [List.length_set, List.length_replicate] at hkc
        rw [getD_set_split, getD_replicate_split]
        simp [hkc])
    rw [hlen, List.length_set, List.length_replicate]
  · -- resolution: first at-or-after is the nearest at-or-after
    intro hex
    unfold resolveStart
    match h : bfillIdx sd dates with
    | some i =>
        obtain ⟨hi1, hi2, hi3⟩ := bfillIdx_some h
        refine ⟨hi2, ?_⟩
        intro j hj hjle
        by_cases hij : i = j
        · subst hij; exact Date.le_refl _
        · have hij2 : i < j := by
            rcases Nat.lt_or_ge i j with h' | h'
            · exact h'
            · have : j < i := by omega
              rw [hi3 j this] at hjle
              exact absurd hjle (by simp)
          have := List.pairwise_iff_getElem.mp hsort i j hi1 hj hij2
          have hle := Date.le_of_lt this
          simpa [List.getD_eq_getElem?_getD, List.getElem?_eq_getElem, hi1, hj] using hle
    | none =>
        obtain ⟨j, hj, hjle⟩ := hex
        rw [bfillIdx_none h j hj] at hjle
        exact absurd hjle (by simp)
  · -- snap to last when nothing at-or-after
    intro hall
    unfold resolveStart
    match h : bfillIdx sd dates with
    | some i =>
        obtain ⟨hi1, hi2, _⟩ := bfillIdx_some h
        rw [hall i hi1] at hi2
        exact absurd hi2 (by simp)
    | none => rfl
  · -- level at start = 100
    rw [calculate_index_level_getD dates ret sd _ hrlt,
      levelVal_of_le _ _ _ (le_refl _)]
  · -- recurrence
    intro t ht htl
    rw [calculate_index_level_getD dates ret sd _ htl,
      calculate_index_level_getD dates ret sd _ (by omega)]
    conv_lhs => rw [show t = (t - 1) + 1 by omega]
    rw [levelVal_succ, if_neg (by omega), show (t - 1) + 1 = t by omega]

/-- Witness for C3 at a concrete input. -/
theorem index_level_compound_spec_witness :
    (calculate_index_level [⟨2020,1,1⟩, ⟨2020,1,2⟩] [FV.num 0, FV.num 0]
      (some ⟨2020,1,1⟩)).getD
        (resolveStart [⟨2020,1,1⟩, ⟨2020,1,2⟩] ⟨2020,1,1⟩) FV.nan = FV.num 100 :=
  (index_level_compound_spec [⟨2020,1,1⟩, ⟨2020,1,2⟩] [FV.num 0, FV.num 0]
    ⟨2020,1,1⟩ (by simp) (by decide)).2.2.2.2.1

/-! ## C5 infrastructure -/

theorem sameMonth_iff {a b : Date} :
    sameMonth a b = true ↔ (a.y = b.y ∧ a.m = b.m) := by
  simp [sameMonth, Bool.and_eq_true, Nat.beq_eq]

theorem exists_max_date : ∀ (l : List Date), l ≠ [] →
    ∃ x, x ∈ l ∧ ∀ y, y ∈ l → Date.le y x = true := by
  intro l
  induction l with
  | nil => intro h; exact absurd rfl h
  | cons a rest ih =>
      intro _
      by_cases h : rest = []
      · subst h
        refine ⟨a, by simp, ?_⟩
        intro y hy
        rw [List.mem_singleton] at hy
        subst hy
        exact Date.le_refl _
      · obtain ⟨m, hm, hmax⟩ := ih h
        rcases Date.le_total m a with h1 | h1
        · refine ⟨a, by simp, ?_⟩
          intro y hy
          rcases List.mem_cons.mp hy with rfl | hy'
          · exact Date.le_refl _
          · exact Date.le_trans (hmax y hy') h1
        · refine ⟨m, by simp [hm], ?_⟩
          intro y hy
          rcases List.mem_cons.mp hy with rfl | hy'
          · exact h1
          · exact hmax y hy'

theorem eom_flag_getD (cal : List Date) (i : Nat) (hi : i < cal.length) :
    (calculate_eom_flag cal).getD i false = isEomIn cal (cal.getD i ⟨0,0,0⟩) := by
  unfold calculate_eom_flag
  simp [List.getD_eq_getElem?_getD, List.getElem?_map, List.getElem?_eq_getElem hi]

theorem isEomIn_iff (cal : List Date) (x : Date) :
    isEomIn cal x = true ↔
      ∀ j, j < cal.length → sameMonth x (cal.getD j ⟨0,0,0⟩) = true →
        Date.le (cal.getD j ⟨0,0,0⟩) x = true := by
  unfold isEomIn
  rw [List.all_eq_true]
  constructor
  · intro h j hj hm
    have hmem : cal.getD j ⟨0,0,0⟩ ∈ cal := by
      rw [List.getD_eq_getElem?_getD, List.getElem?_eq_getElem hj]
      exact List.getElem_mem hj
    have := h _ hmem
    rw [Bool.or_eq_true, Bool.not_eq_true'] at this
    rcases this with h' | h'
    · rw [hm] at h'; exact absurd h' (by simp)
    · exact h'
  · intro h e he
    obtain ⟨j, hj, rfl⟩ := List.mem_iff_getElem.mp he
    rw [Bool.or_eq_true, Bool.not_eq_true']
    by_cases hm : sameMonth x cal[j] = true
    · right
      have := h j hj (by
        rw [List.getD_eq_getElem?_getD, List.getElem?_eq_getElem hj]
        exact hm)
      rw [List.getD_eq_getElem?_getD, List.getElem?_eq_getElem hj] at this
      exact this
    · left
      exact Bool.eq_false_iff.mpr hm

/-- C5: the end-of-month flag column is as long as the calendar, a date
is flagged iff it is the latest date of its calendar month present in
the calendar, and — for a strictly increasing calendar — each
represented month has exactly one flagged date; the empty calendar
produces no flags. -/
theorem eom_flag_spec (cal : List Date)
    (hsort : cal.Pairwise (fun a b => Date.lt a b = true)) :
    (calculate_eom_flag cal).length = cal.length ∧
    (∀ i, i < cal.length →
      ((calculate_eom_flag cal).getD i false = true ↔
        ∀ j, j < cal.length →
          sameMonth (cal.getD i ⟨0,0,0⟩) (cal.getD j ⟨0,0,0⟩) = true →
          Date.le (cal.getD j ⟨0,0,0⟩) (cal.getD i ⟨0,0,0⟩) = true)) ∧
    (∀ yy mm,
      (∃ k, k < cal.length ∧ (cal.getD k ⟨0,0,0⟩).y = yy ∧
        (cal.getD k ⟨0,0,0⟩).m = mm) →
      ∃ i, i < cal.length ∧ (calculate_eom_flag cal).getD i false = true ∧
        (cal.getD i ⟨0,0,0⟩).y = yy ∧ (cal.getD i ⟨0,0,0⟩).m = mm ∧
        ∀ j, j < cal.length → j ≠ i →
          ¬((calculate_eom_flag cal).getD j false = true ∧
            (cal.getD j ⟨0,0,0⟩).y = yy ∧ (cal.getD j ⟨0,0,0⟩).m = mm)) ∧
    (cal = [] → calculate_eom_flag cal = []) := by
  refine ⟨by simp [calculate_eom_flag], ?_, ?_, by intro h; subst h; rfl⟩
  · intro i hi
    rw [eom_flag_getD cal i hi, isEomIn_iff]
  · intro yy mm ⟨k, hk, hky, hkm⟩
    -- the sub-list of dates in month (yy, mm)
    set sub := cal.filter (fun e => Nat.beq e.y yy && Nat.beq e.m mm) with hsub
    have hsubne : sub ≠ [] := by
      have hmem : cal.getD k ⟨0,0,0⟩ ∈ sub := by
        rw [hsub]
        apply List.mem_filter.mpr
        refine ⟨?_, ?_⟩
        · rw [List.getD_eq_getElem?_getD, List.getElem?_eq_getElem hk]
          exact List.getElem_mem hk
        · rw [Bool.and_eq_true, Nat.beq_eq, Nat.beq_eq]
          exact ⟨hky, hkm⟩
      intro hkill
      rw [hkill] at hmem
      exact absurd hmem (List.not_mem_nil _)
    obtain ⟨x, hxmem, hxmax⟩ := exists_max_date sub hsubne
    have hxcal : x ∈ cal := (List.mem_filter.mp hxmem).1
    have hxym : x.y = yy ∧ x.m = mm := by
      have := (List.mem_filter.mp hxmem).2
      rw [Bool.and_eq_true, Nat.beq_eq, Nat.beq_eq] at this
      exact this
    obtain ⟨i, hi, hxi⟩ := List.mem_iff_getElem.mp hxcal
    have hgetD : cal.getD i ⟨0,0,0⟩ = x := by
      rw [List.getD_eq_getElem?_getD, List.getElem?_eq_getElem hi, hxi]
      rfl
    have hflag : (calculate_eom_flag cal).getD i false = true := by
      rw [eom_flag_getD cal i hi, hgetD, isEomIn_iff]
      intro j hj hm
      apply hxmax
      rw [hsub]
      apply List.mem_filter.mpr
      refine ⟨?_, ?_⟩
      · rw [List.getD_eq_getElem?_getD, List.getElem?_eq_getElem hj]
        exact List.getElem_mem hj
      · rw [sameMonth_iff] at hm
        rw [Bool.and_eq_true, Nat.beq_eq, Nat.beq_eq]
        omega
    refine ⟨i, hi, hflag, by rw [hgetD]; exact hxym.1, by rw [hgetD]; exact hxym.2, ?_⟩
    intro j hj hne
    rintro ⟨hfj, hjy, hjm⟩
    -- both i and j are month-maxima of (yy, mm): contradiction
    rw [eom_flag_getD cal j hj, isEomIn_iff] at hfj
    have hsm1 : sameMonth (cal.getD j ⟨0,0,0⟩) (cal.getD i ⟨0,0,0⟩) = true := by
      rw [sameMonth_iff, hgetD]
      exact ⟨by rw [hjy, hxym.1], by rw [hjm, hxym.2]⟩
    have h1 : Date.le (cal.getD i ⟨0,0,0⟩) (cal.getD j ⟨0,0,0⟩) = true :=
      hfj i hi hsm1
    have h2 : Date.le (cal.getD j ⟨0,0,0⟩) (cal.getD i ⟨0,0,0⟩) = true := by
      have hflag' := hflag
      rw [eom_flag_getD cal i hi, isEomIn_iff] at hflag'
      apply hflag' j hj
      rw [sameMonth_iff, hgetD]
      exact ⟨by rw [hjy, hxym.1], by rw [hjm, hxym.2]⟩
    have heq := Date.le_antisymm h1 h2
    rw [List.getD_eq_getElem?_getD, List.getD_eq_getElem?_getD,
      List.getElem?_eq_getElem hi, List.getElem?_eq_getElem hj,
      Option.getD_some, Option.getD_some] at heq
    -- strict sorting makes positions with equal dates equal
    rcases Nat.lt_or_ge j i with hlt | hge
    · have := List.pairwise_iff_getElem.mp hsort j i hj hi hlt
      exact Date.ne_of_lt this heq.symm
    · have hlt2 : i < j := by omega
      have := List.pairwise_iff_getElem.mp hsort i j hi hj hlt2
      exact Date.ne_of_lt this heq

/-- Witness for C5 at a concrete input. -/
theorem eom_flag_spec_witness :
    (calculate_eom_flag [⟨2020,1,1⟩, ⟨2020,1,31⟩, ⟨2020,2,28⟩]).length = 3 :=
  (eom_flag_spec [⟨2020,1,1⟩, ⟨2020,1,31⟩, ⟨2020,2,28⟩] (by decide)).1

/-! ## C4 infrastructure -/

theorem ffillAux_length : ∀ (l : List (Option ℚ)) (prev : Option ℚ),
    (ffillAux prev l).length = l.length := by
  intro l
  induction l with
  | nil => intro prev; rfl
  | cons c rest ih =>
      intro prev
      cases c with
      | none => simp [ffillAux, ih]
      | some q => simp [ffillAux, ih]

theorem pctList_length : ∀ (l : List (Option ℚ)) (prev : Option ℚ),
    (pctList prev l).length = l.length := by
  intro l
  induction l with
  | nil => intro prev; rfl
  | cons c rest ih =>
      intro prev
      simp [pctList, ih]

theorem fillnaZero_length (xs : List FV) : (fillnaZero xs).length = xs.length := by
  simp [fillnaZero]

theorem fillnaZero_getD (xs : List FV) (t : Nat) (h : t < xs.length) :
    (fillnaZero xs).getD t FV.nan =
      if xs.getD t FV.nan = FV.nan then FV.num 0 else xs.getD t FV.nan := by
  simp [fillnaZero, List.getD_eq_getElem?_getD, List.getElem?_map,
    List.getElem?_eq_getElem h]

theorem ffillAux_cons_eq (prev : Option ℚ) (c : Option ℚ) (rest : List (Option ℚ)) :
    ∃ d, ffillAux prev (c :: rest) = d :: ffillAux d rest ∧
      (c = none → d = prev) ∧ (∀ q, c = some q → d = some q) := by
  cases c with
  | none => exact ⟨prev, rfl, fun _ => rfl, fun q h => by simp at h⟩
  | some q => exact ⟨some q, rfl, by simp, fun q' h => h⟩

theorem ffillAux_defined : ∀ (l : List (Option ℚ)) (prev : Option ℚ) (t : Nat) (q : ℚ),
    l.getD t none = some q → (ffillAux prev l).getD t none = some q := by
  intro l
  induction l with
  | nil => intro prev t q h; simp [List.getD] at h
  | cons c rest ih =>
      intro prev t q h
      obtain ⟨d, hd, hdn, hds⟩ := ffillAux_cons_eq prev c rest
      rw [hd]
      cases t with
      | zero =>
          rw [List.getD_cons_zero] at h ⊢
          exact hds q h
      | succ t' =>
          rw [List.getD_cons_succ] at h ⊢
          exact ih d t' q h

theorem ffillAux_gap : ∀ (l : List (Option ℚ)) (prev : Option ℚ) (t : Nat),
    0 < t → t < l.length → l.getD t none = none →
    (ffillAux prev l).getD t none = (ffillAux prev l).getD (t - 1) none := by
  intro l
  induction l with
  | nil => intro prev t ht hlen _; simp at hlen
  | cons c rest ih =>
      intro prev t ht hlen hnone
      obtain ⟨d, hd, _, _⟩ := ffillAux_cons_eq prev c rest
      rw [hd]
      match t, ht with
      | 1, _ =>
          simp only [List.getD_cons_succ, List.getD_cons_zero]
          have hr : rest.getD 0 none = none := hnone
          have hrne : rest ≠ [] := by
            intro hempty
            rw [hempty] at hlen
            simp at hlen
          match rest, hrne, hr with
          | none :: rest', _, _ => rfl
          | some q :: rest', _, hr' => simp at hr'
      | (t' + 2), _ =>
          simp only [List.getD_cons_succ, Nat.add_sub_cancel]
          have := ih d (t' + 1) (by omega)
            (by simp only [List.length_cons] at hlen; omega)
            (by simpa using hnone)
          simpa using this

theorem pctList_getD : ∀ (l : List (Option ℚ)) (prev : Option ℚ) (t : Nat),
    t < l.length →
    (pctList prev l).getD t FV.nan =
      pctCell (if t = 0 then prev else l.getD (t - 1) none) (l.getD t none) := by
  intro l
  induction l with
  | nil => intro prev t ht; simp at ht
  | cons c rest ih =>
      intro prev t ht
      cases t with
      | zero => simp [pctList]
      | succ t' =>
          rw [pctList]
          simp only [List.getD_cons_succ, Nat.add_sub_cancel]
          rw [ih c t' (by simpa using ht)]
          cases t' with
          | zero => simp
          | succ t'' => simp

/-- C4 (amended): the daily return equals `price[t]/price[t-1] - 1`
whenever the two adjacent prices are defined and the previous one is
nonzero, and the first-date return is exactly 0; but missing prices are
forward-filled before the ratio (so the general ratio holds of the
*forward-filled* series — a date right after a gap compares against the
last defined price, not 0), a missing current price yields return 0,
and a zero previous price with a positive current price yields `inf`,
not 0. -/
theorem daily_returns_spec (ps : List (Option ℚ)) :
    (calculate_daily_returns_col ps).length = ps.length ∧
    (0 < ps.length → (calculate_daily_returns_col ps).getD 0 FV.nan = FV.num 0) ∧
    (∀ t a b, 0 < t → t < ps.length →
      (ffill ps).getD (t - 1) none = some b → (ffill ps).getD t none = some a →
      b ≠ 0 →
      (calculate_daily_returns_col ps).getD t FV.nan = FV.num (a / b - 1)) ∧
    (∀ t a b, 0 < t → t < ps.length →
      ps.getD (t - 1) none = some b → ps.getD t none = some a → b ≠ 0 →
      (calculate_daily_returns_col ps).getD t FV.nan = FV.num (a / b - 1)) ∧
    (∀ t, 0 < t → t < ps.length → ps.getD t none = none →
      (calculate_daily_returns_col ps).getD t FV.nan = FV.num 0) ∧
    (∀ t a, 0 < t → t < ps.length →
      (ffill ps).getD (t - 1) none = some 0 → (ffill ps).getD t none = some a →
      0 < a →
      (calculate_daily_returns_col ps).getD t FV.nan = FV.inf) := by
  have hfl : (ffill ps).length = ps.length := ffillAux_length ps none
  have hpl : (pctList none (ffill ps)).length = ps.length := by
    rw [pctList_length, hfl]
  have hcol : ∀ t, t < ps.length →
      (calculate_daily_returns_col ps).getD t FV.nan =
        (if (pctList none (ffill ps)).getD t FV.nan = FV.nan then FV.num 0
         else (pctList none (ffill ps)).getD t FV.nan) := by
    intro t ht
    unfold calculate_daily_returns_col pctChangePad
    rw [fillnaZero_getD _ _ (by rw [hpl]; exact ht)]
  have hpct : ∀ t, t < ps.length →
      (pctList none (ffill ps)).getD t FV.nan =
        pctCell (if t = 0 then none else (ffill ps).getD (t - 1) none)
          ((ffill ps).getD t none) := by
    intro t ht
    exact pctList_getD (ffill ps) none t (by rw [hfl]; exact ht)
  have hratio : ∀ t a b, 0 < t → t < ps.length →
      (ffill ps).getD (t - 1) none = some b → (ffill ps).getD t none = some a →
      b ≠ 0 →
      (calculate_daily_returns_col ps).getD t FV.nan = FV.num (a / b - 1) := by
    intro t a b ht htl hb ha hbne
    have hv := hpct t htl
    rw [if_neg (show ¬t = 0 by omega), hb, ha] at hv
    simp only [pctCell] at hv
    rw [if_neg hbne] at hv
    rw [hcol t htl, hv]
    simp
  refine ⟨?_, ?_, hratio, ?_, ?_, ?_⟩
  · unfold calculate_daily_returns_col pctChangePad
    rw [fillnaZero_length, pctList_length, hfl]
  · intro h0
    rw [hcol 0 h0, hpct 0 h0]
    cases ((ffill ps).getD 0 none) <;> simp [pctCell]
  · intro t a b ht htl hb ha hbne
    exact hratio t a b ht htl (ffillAux_defined ps none _ _ hb)
      (ffillAux_defined ps none _ _ ha) hbne
  · intro t ht htl hnone
    have hgap : (ffill ps).getD t none = (ffill ps).getD (t - 1) none :=
      ffillAux_gap ps none t ht htl hnone
    have hv := hpct t htl
    rw [if_neg (show ¬t = 0 by omega), hgap] at hv
    cases hprev : (ffill ps).getD (t - 1) none with
    | none =>
        rw [hprev] at hv
        simp only [pctCell] at hv
        rw [hcol t htl, hv]
        simp
    | some b =>
        rw [hprev] at hv
        simp only [pctCell] at hv
        by_cases hb0 : b = 0
        · subst hb0
          simp only [if_pos rfl, lt_irrefl, if_neg (lt_irrefl 0)] at hv
          rw [hcol t htl, hv]
          simp
        · rw [if_neg hb0, div_self hb0] at hv
          rw [hcol t htl, hv]
          norm_num
  · intro t a ht htl hb ha hapos
    have hv := hpct t htl
    rw [if_neg (show ¬t = 0 by omega), hb, ha] at hv
    simp only [pctCell] at hv
    rw [hcol t htl, hv]
    simp [hapos]

/-- C4 counterexample: with the single price column `[0, 5]`, the
return at position 1 is `inf`, not the 0 the claim requires for an
undefined (zero-denominator) ratio. -/
theorem daily_returns_cex :
    calculate_daily_returns_col [some 0, some 5] = [FV.num 0, FV.inf] ∧
      FV.inf ≠ FV.num 0 := by
  constructor
  · decide
  · simp

/-- Witness for C4 at a concrete input. -/
theorem daily_returns_spec_witness :
    (calculate_daily_returns_col [some 10, some 20]).getD 1 FV.nan = FV.num 1 := by
  have h := (daily_returns_spec [some 10, some 20]).2.2.2.1 1 20 10
    (by omega) (by simp) rfl rfl (by norm_num)
  rw [h]
  norm_num

/-! ## Sorting infrastructure (for `calculate_weights`) -/

theorem insertBy_perm (le : Nat → Nat → Bool) (x : Nat) :
    ∀ (l : List Nat), (insertBy le x l).Perm (x :: l) := by
  intro l
  induction l with
  | nil => exact List.Perm.refl _
  | cons y ys ih =>
      rw [insertBy]
      by_cases h : le x y = true
      · rw [if_pos h]
      · rw [if_neg h]
        exact (List.Perm.cons y ih).trans (List.Perm.swap x y ys)

theorem sortBy_perm (le : Nat → Nat → Bool) :
    ∀ (l : List Nat), (sortBy le l).Perm l := by
  intro l
  induction l with
  | nil => exact List.Perm.refl _
  | cons x xs ih =>
      rw [sortBy]
      exact (insertBy_perm le x (sortBy le xs)).trans (List.Perm.cons x ih)

theorem insertBy_mem {le : Nat → Nat → Bool} {x z : Nat} {l : List Nat}
    (h : z ∈ insertBy le x l) : z = x ∨ z ∈ l := by
  have := (insertBy_perm le x l).mem_iff.mp h
  simpa using this

theorem insertBy_pairwise (le : Nat → Nat → Bool)
    (htrans : ∀ a b c, le a b = true → le b c = true → le a c = true)
    (htot : ∀ a b, le a b = true ∨ le b a = true) (x : Nat) :
    ∀ (l : List Nat), l.Pairwise (fun a b => le a b = true) →
      (insertBy le x l).Pairwise (fun a b => le a b = true) := by
  intro l
  induction l with
  | nil => intro _; simp [insertBy]
  | cons y ys ih =>
      intro hp
      rw [List.pairwise_cons] at hp
      obtain ⟨hy, hys⟩ := hp
      rw [insertBy]
      by_cases h : le x y = true
      · rw [if_pos h]
        rw [List.pairwise_cons]
        refine ⟨?_, List.pairwise_cons.mpr ⟨hy, hys⟩⟩
        intro z hz
        rcases List.mem_cons.mp hz with rfl | hz'
        · exact h
        · exact htrans x y z h (hy z hz')
      · rw [if_neg h]
        rw [List.pairwise_cons]
        refine ⟨?_, ih hys⟩
        intro z hz
        rcases insertBy_mem hz with heq | hz'
        · subst heq
          rcases htot z y with h' | h'
          · exact absurd h' h
          · exact h'
        · exact hy z hz'

theorem sortBy_pairwise (le : Nat → Nat → Bool)
    (htrans : ∀ a b c, le a b = true → le b c = true → le a c = true)
    (htot : ∀ a b, le a b = true ∨ le b a = true) :
    ∀ (l : List Nat), (sortBy le l).Pairwise (fun a b => le a b = true) := by
  intro l
  induction l with
  | nil => simp [sortBy]
  | cons x xs ih =>
      rw [sortBy]
      exact insertBy_pairwise le htrans htot x (sortBy le xs) ih

theorem priceLe_total (row : List (Option ℚ)) (i j : Nat) :
    priceLe row i j = true ∨ priceLe row j i = true := by
  unfold priceLe
  cases hi : row.getD i none <;> cases hj : row.getD j none <;> simp
  exact le_total _ _

theorem priceLe_trans (row : List (Option ℚ)) (i j k : Nat)
    (h1 : priceLe row i j = true) (h2 : priceLe row j k = true) :
    priceLe row i k = true := by
  unfold priceLe at *
  cases hi : row.getD i none <;> cases hj : row.getD j none <;>
    cases hk : row.getD k none <;> simp_all
  exact le_trans h2 h1

theorem rankStocks_perm (n : Nat) (row : List (Option ℚ)) :
    (rankStocks n row).Perm (List.range n) := sortBy_perm _ _

theorem rankStocks_nodup (n : Nat) (row : List (Option ℚ)) :
    (rankStocks n row).Nodup :=
  (rankStocks_perm n row).nodup_iff.mpr (List.nodup_range n)

theorem rankStocks_mem (n : Nat) (row : List (Option ℚ)) (s : Nat) :
    s ∈ rankStocks n row ↔ s < n := by
  rw [(rankStocks_perm n row).mem_iff, List.mem_range]

theorem rankStocks_length (n : Nat) (row : List (Option ℚ)) :
    (rankStocks n row).length = n := by
  rw [(rankStocks_perm n row).length_eq, List.length_range]

theorem rankStocks_pairwise (n : Nat) (row : List (Option ℚ)) :
    (rankStocks n row).Pairwise (fun a b => priceLe row a b = true) :=
  sortBy_pairwise _ (priceLe_trans row) (priceLe_total row) _

/-! ## Period (cumsum) infrastructure -/

theorem cumsumFlags_getD (flags : List Bool) (i : Nat) (hi : i < flags.length) :
    (cumsumFlags flags).getD i 0 = (flags.take (i + 1)).count true := by
  unfold cumsumFlags
  simp [List.getD_eq_getElem?_getD, List.getElem?_map, List.getElem?_range, hi]

theorem count_take_succ (flags : List Bool) (i : Nat) (hi : i < flags.length) :
    (flags.take (i + 1)).count true =
      (flags.take i).count true + (if flags.getD i false = true then 1 else 0) := by
  rw [List.take_succ, List.count_append]
  congr 1
  rw [List.getElem?_eq_getElem hi]
  rw [List.getD_eq_getElem?_getD, List.getElem?_eq_getElem hi]
  cases h : flags[i] <;> simp [h, List.count_cons]

theorem count_take_mono (flags : List Bool) (a b : Nat) (hab : a ≤ b) :
    (flags.take a).count true ≤ (flags.take b).count true := by
  have : flags.take a = (flags.take b).take a := by
    rw [List.take_take, Nat.min_eq_left hab]
  rw [this]
  exact (List.take_sublist a (flags.take b)).count_le true

theorem cumsum_lt_of_flag (flags : List Bool) (a b : Nat) (hab : a < b)
    (hb : b < flags.length) (hfb : flags.getD b false = true) :
    (cumsumFlags flags).getD a 0 < (cumsumFlags flags).getD b 0 := by
  have ha : a < flags.length := by omega
  rw [cumsumFlags_getD flags a ha, cumsumFlags_getD flags b hb,
    count_take_succ flags b hb, if_pos hfb]
  have := count_take_mono flags (a + 1) b (by omega)
  omega

theorem cumsum_pos_of_flag (flags : List Bool) (a : Nat)
    (ha : a < flags.length) (hfa : flags.getD a false = true) :
    1 ≤ (cumsumFlags flags).getD a 0 := by
  rw [cumsumFlags_getD flags a ha, count_take_succ flags a ha, if_pos hfa]
  omega

theorem cumsum_zero_of_no_flags (flags : List Bool) (i : Nat)
    (hi : i < flags.length) (h : ∀ b, b ≤ i → flags.getD b false = false) :
    (cumsumFlags flags).getD i 0 = 0 := by
  rw [cumsumFlags_getD flags i hi]
  induction i with
  | zero =>
      rw [count_take_succ flags 0 hi, if_neg (by rw [h 0 (le_refl 0)]; simp)]
      simp
  | succ i' ih =>
      rw [count_take_succ flags (i' + 1) hi,
        if_neg (by rw [h (i' + 1) (le_refl _)]; simp)]
      have := ih (by omega) (fun b hb => h b (by omega))
      omega

theorem cumsum_eq_of_no_flags_between (flags : List Bool) (a i : Nat)
    (hai : a ≤ i) (hi : i < flags.length)
    (h : ∀ b, a < b → b ≤ i → flags.getD b false = false) :
    (cumsumFlags flags).getD a 0 = (cumsumFlags flags).getD i 0 := by
  induction i with
  | zero =>
      have : a = 0 := by omega
      subst this
      rfl
  | succ i' ih =>
      by_cases hcase : a = i' + 1
      · subst hcase; rfl
      · have ha' : a ≤ i' := by omega
        have hi' : i' < flags.length := by omega
        rw [ih ha' hi' (fun b hb1 hb2 => h b hb1 (by omega))]
        rw [cumsumFlags_getD flags i' hi', cumsumFlags_getD flags (i' + 1) hi,
          count_take_succ flags (i' + 1) hi,
          if_neg (by rw [h (i' + 1) (by omega) (le_refl _)]; simp)]
        omega

/-! ## Mask / anchor infrastructure -/

theorem maskSet_length (cond : Nat → Bool) (v : List ℚ) (W : List (List ℚ)) :
    (maskSet cond v W).length = W.length := by
  simp [maskSet]

theorem maskSet_getD (cond : Nat → Bool) (v : List ℚ) (W : List (List ℚ))
    (i : Nat) (hi : i < W.length) :
    (maskSet cond v W).getD i [] = if cond i then v else W.getD i [] := by
  unfold maskSet
  simp [List.getD_eq_getElem?_getD, List.getElem?_map, List.getElem?_range, hi]

theorem anchors_mem (flags : List Bool) (a : Nat) :
    a ∈ anchors flags ↔ a < flags.length ∧ flags.getD a false = true := by
  simp [anchors, List.mem_filter, List.mem_range]

theorem anchors_pairwise_ne (flags : List Bool) :
    (anchors flags).Pairwise
      (fun a b => (cumsumFlags flags).getD a 0 ≠ (cumsumFlags flags).getD b 0) := by
  have hlt : (anchors flags).Pairwise (· < ·) :=
    List.Pairwise.sublist (List.filter_sublist _) (List.pairwise_lt_range flags.length)
  refine hlt.imp_of_mem ?_
  intro a b ha hb hab
  have hb' := (anchors_mem flags b).mp hb
  exact Nat.ne_of_lt (cumsum_lt_of_flag flags a b hab hb'.1 hb'.2)

/-! ## Row characterization of `calculate_weights` -/

/-- The weight row an anchor `a` produces. -/
def anchorRow (n : Nat) (prices : List (List (Option ℚ))) (a : Nat) : List ℚ :=
  weightRow n ((rankStocks n (prices.getD a [])).take 3)

theorem weights_fold_char (n : Nat) (prices : List (List (Option ℚ)))
    (flags : List Bool) :
    ∀ (A : List Nat) (W : List (List ℚ)),
    A.Pairwise (fun a b =>
      (cumsumFlags flags).getD a 0 ≠ (cumsumFlags flags).getD b 0) →
    ((A.foldl (fun W a =>
        maskSet (fun i =>
            (cumsumFlags flags).getD i 0 == (cumsumFlags flags).getD a 0)
          (anchorRow n prices a) W) W).length = W.length ∧
      ∀ i, i < W.length →
        (A.foldl (fun W a =>
            maskSet (fun i =>
              (cumsumFlags flags).getD i 0 == (cumsumFlags flags).getD a 0)
            (anchorRow n prices a) W) W).getD i [] =
          match A.find? (fun a =>
              (cumsumFlags flags).getD a 0 == (cumsumFlags flags).getD i 0) with
          | some a => anchorRow n prices a
          | none => W.getD i []) := by
  intro A
  induction A with
  | nil =>
      intro W _
      exact ⟨rfl, fun i _ => rfl⟩
  | cons a A' ih =>
      intro W hp
      rw [List.pairwise_cons] at hp
      obtain ⟨hpa, hp'⟩ := hp
      rw [List.foldl_cons]
      obtain ⟨ihlen, ihget⟩ := ih
        (maskSet (fun i =>
          (cumsumFlags flags).getD i 0 == (cumsumFlags flags).getD a 0)
          (anchorRow n prices a) W) hp'
      rw [maskSet_length] at ihlen
      refine ⟨ihlen, ?_⟩
      intro i hi
      have hget := ihget i (by rw [maskSet_length]; exact hi)
      by_cases hcase :
          ((cumsumFlags flags).getD a 0 == (cumsumFlags flags).getD i 0) = true
      · have hfind : List.find? (fun b =>
            (cumsumFlags flags).getD b 0 == (cumsumFlags flags).getD i 0)
            (a :: A') = some a := List.find?_cons_of_pos A' hcase
        rw [hfind]
        rw [beq_iff_eq] at hcase
        have hnone : A'.find? (fun b =>
            (cumsumFlags flags).getD b 0 == (cumsumFlags flags).getD i 0) = none := by
          rw [List.find?_eq_none]
          intro b hb
          have := hpa b hb
          rw [hcase] at this
          simp only [beq_iff_eq]
          omega
        rw [hnone] at hget
        rw [hget, maskSet_getD _ _ _ i hi,
          if_pos (by simp only [beq_iff_eq]; omega)]
      · have hfind : List.find? (fun b =>
            (cumsumFlags flags).getD b 0 == (cumsumFlags flags).getD i 0)
            (a :: A') = List.find? (fun b =>
            (cumsumFlags flags).getD b 0 == (cumsumFlags flags).getD i 0) A' :=
          List.find?_cons_of_neg A' hcase
        rw [hfind]
        rw [hget]
        have hmask := maskSet_getD (fun j =>
            (cumsumFlags flags).getD j 0 == (cumsumFlags flags).getD a 0)
          (anchorRow n prices a) W i hi
        rw [if_neg (by
          simp only [beq_iff_eq] at hcase ⊢
          omega)] at hmask
        rw [hmask]

theorem calculate_weights_eq_fold (n : Nat) (prices : List (List (Option ℚ)))
    (flags : List Bool) :
    calculate_weights n prices flags =
      (anchors flags).foldl (fun W a =>
        maskSet (fun i =>
          (cumsumFlags flags).getD i 0 == (cumsumFlags flags).getD a 0)
          (anchorRow n prices a) W)
        (prices.map (fun _ => List.replicate n (0:ℚ))) := rfl

theorem calculate_weights_length (n : Nat) (prices : List (List (Option ℚ)))
    (flags : List Bool) :
    (calculate_weights n prices flags).length = prices.length := by
  rw [calculate_weights_eq_fold]
  obtain ⟨hlen, _⟩ := weights_fold_char n prices flags (anchors flags)
    (prices.map (fun _ => List.replicate n (0:ℚ))) (anchors_pairwise_ne flags)
  rw [hlen, List.length_map]

theorem calculate_weights_getD_anchor (n : Nat) (prices : List (List (Option ℚ)))
    (flags : List Bool) (a i : Nat)
    (ha : a < flags.length) (hfa : flags.getD a false = true)
    (hi : i < prices.length)
    (hP : (cumsumFlags flags).getD a 0 = (cumsumFlags flags).getD i 0) :
    (calculate_weights n prices flags).getD i [] = anchorRow n prices a := by
  rw [calculate_weights_eq_fold]
  obtain ⟨_, hget⟩ := weights_fold_char n prices flags (anchors flags)
    (prices.map (fun _ => List.replicate n (0:ℚ))) (anchors_pairwise_ne flags)
  have hi' : i < (prices.map (fun _ => List.replicate n (0:ℚ))).length := by
    rw [List.length_map]; exact hi
  rw [hget i hi']
  have hmem : a ∈ anchors flags := (anchors_mem flags a).mpr ⟨ha, hfa⟩
  have hsome : ((anchors flags).find? (fun b =>
      (cumsumFlags flags).getD b 0 == (cumsumFlags flags).getD i 0)).isSome := by
    rw [List.find?_isSome]
    exact ⟨a, hmem, by simp only [beq_iff_eq]; omega⟩
  match hfind : (anchors flags).find? (fun b =>
      (cumsumFlags flags).getD b 0 == (cumsumFlags flags).getD i 0) with
  | none => rw [hfind] at hsome; simp at hsome
  | some b =>
      have hbmem := List.mem_of_find?_eq_some hfind
      have hbp := List.find?_some hfind
      simp only [beq_iff_eq] at hbp
      have hba : b = a := by
        by_contra hne
        have hsym : Symmetric (fun x y : Nat =>
            (cumsumFlags flags).getD x 0 ≠ (cumsumFlags flags).getD y 0) :=
          fun x y h => Ne.symm h
        have := (anchors_pairwise_ne flags).forall hsym hbmem hmem hne
        omega
      subst hba
      rfl

theorem calculate_weights_getD_no_anchor (n : Nat)
    (prices : List (List (Option ℚ))) (flags : List Bool) (i : Nat)
    (hlen : flags.length = prices.length)
    (hi : i < prices.length)
    (hnoflag : ∀ b, b ≤ i → flags.getD b false = false) :
    (calculate_weights n prices flags).getD i [] = List.replicate n 0 := by
  rw [calculate_weights_eq_fold]
  obtain ⟨_, hget⟩ := weights_fold_char n prices flags (anchors flags)
    (prices.map (fun _ => List.replicate n (0:ℚ))) (anchors_pairwise_ne flags)
  have hi' : i < (prices.map (fun _ => List.replicate n (0:ℚ))).length := by
    rw [List.length_map]; exact hi
  rw [hget i hi']
  have hPi : (cumsumFlags flags).getD i 0 = 0 :=
    cumsum_zero_of_no_flags flags i (by omega) hnoflag
  have hnone : ((anchors flags).find? (fun b =>
      (cumsumFlags flags).getD b 0 == (cumsumFlags flags).getD i 0)) = none := by
    rw [List.find?_eq_none]
    intro b hb
    obtain ⟨hb1, hb2⟩ := (anchors_mem flags b).mp hb
    have := cumsum_pos_of_flag flags b hb1 hb2
    simp only [beq_iff_eq]
    omega
  rw [hnone]
  simp [List.getD_eq_getElem?_getD, List.getElem?_map, List.getElem?_replicate, hi]

/-- C6: the weight assignment is all-zero strictly before the first
anchor, is constant on every set of dates sharing a `Period` value, and
within the period from an anchor (inclusive) to just before the next
anchor every date carries the anchor's assignment. -/
theorem weights_period_spec (n : Nat) (prices : List (List (Option ℚ)))
    (flags : List Bool) (hlen : flags.length = prices.length) :
    (∀ i, i < prices.length → (∀ b, b ≤ i → flags.getD b false = false) →
      (calculate_weights n prices flags).getD i [] = List.replicate n 0) ∧
    (∀ i j, i < prices.length → j < prices.length →
      (cumsumFlags flags).getD i 0 = (cumsumFlags flags).getD j 0 →
      (calculate_weights n prices flags).getD i [] =
        (calculate_weights n prices flags).getD j []) ∧
    (∀ a i, a ≤ i → i < prices.length → flags.getD a false = true →
      (∀ b, a < b → b ≤ i → flags.getD b false = false) →
      (calculate_weights n prices flags).getD i [] =
        (calculate_weights n prices flags).getD a []) := by
  have hinit : ∀ k, k < prices.length →
      (prices.map (fun _ => List.replicate n (0:ℚ))).getD k [] =
        List.replicate n 0 := by
    intro k hk
    simp [List.getD_eq_getElem?_getD, List.getElem?_map, List.getElem?_replicate, hk]
  refine ⟨?_, ?_, ?_⟩
  · intro i hi hnoflag
    exact calculate_weights_getD_no_anchor n prices flags i hlen hi hnoflag
  · intro i j hi hj hP
    rw [calculate_weights_eq_fold]
    obtain ⟨_, hget⟩ := weights_fold_char n prices flags (anchors flags)
      (prices.map (fun _ => List.replicate n (0:ℚ))) (anchors_pairwise_ne flags)
    rw [hget i (by rw [List.length_map]; exact hi),
      hget j (by rw [List.length_map]; exact hj), hP]
    cases hfind : List.find? (fun b =>
        (cumsumFlags flags).getD b 0 == (cumsumFlags flags).getD j 0)
        (anchors flags) with
    | none => rw [hinit i hi, hinit j hj]
    | some a => rfl
  · intro a i hai hi hfa hgap
    have ha : a < flags.length := by omega
    have hP : (cumsumFlags flags).getD a 0 = (cumsumFlags flags).getD i 0 :=
      cumsum_eq_of_no_flags_between flags a i hai (by omega) hgap
    rw [calculate_weights_getD_anchor n prices flags a i ha hfa hi hP,
      calculate_weights_getD_anchor n prices flags a a ha hfa (by omega) rfl]

/-- Witness for C6 at a concrete input. -/
theorem weights_period_spec_witness :
    (calculate_weights 1 [[some 1], [some 1]] [true, false]).getD 1 [] =
      (calculate_weights 1 [[some 1], [some 1]] [true, false]).getD 0 [] := by
  have h := (weights_period_spec 1 [[some 1], [some 1]] [true, false]
    (by simp)).2.2 0 1 (by omega) (by simp) (by simp)
    (by
      intro b hb1 hb2
      have : b = 1 := by omega
      subst this
      rfl)
  exact h

/-! ## Weight-row value lemmas (for C7 and C1) -/

theorem weightRow_getD_tiers (n : Nat) (top3 : List Nat) (s : Nat) :
    (weightRow n top3).getD s 0 = 0 ∨ (weightRow n top3).getD s 0 = 1/4 ∨
      (weightRow n top3).getD s 0 = 1/2 := by
  unfold weightRow
  split_ifs <;>
    simp only [getD_set_split, getD_replicate_split, List.length_set,
      List.length_replicate] <;>
    split_ifs <;> simp

theorem sum_set_rat : ∀ (l : List ℚ) (i : Nat) (v : ℚ), i < l.length →
    (l.set i v).sum = l.sum - l.getD i 0 + v := by
  intro l
  induction l with
  | nil => intro i v h; simp at h
  | cons x t ih =>
      intro i v h
      cases i with
      | zero => simp [List.sum_cons]; ring
      | succ i' =>
          rw [List.set_cons_succ]
          rw [List.sum_cons, List.sum_cons, ih i' v (by simpa using h),
            List.getD_cons_succ]
          ring

theorem weightRow_sum (n : Nat) :
    ∀ (top3 : List Nat), top3.Nodup → (∀ t ∈ top3, t < n) →
    (weightRow n top3).sum =
      (if 0 < top3.length then (1:ℚ)/2 else 0) +
      (if 1 < top3.length then (1:ℚ)/4 else 0) +
      (if 2 < top3.length then (1:ℚ)/4 else 0)
  | [], _, _ => by simp [weightRow]
  | [a], _, hlt => by
      have ha : a < n := hlt a (by simp)
      unfold weightRow
      simp only [List.length_singleton, List.length_nil, List.length_cons, List.getD_cons_zero]
      rw [if_neg (by omega), if_neg (by omega), if_pos (by omega)]
      rw [sum_set_rat _ _ _ (by simp only [List.length_replicate]; exact ha)]
      rw [getD_replicate_split, if_pos ha]
      norm_num
  | [a, b], hnd, hlt => by
      have ha : a < n := hlt a (by simp)
      have hb : b < n := hlt b (by simp)
      have hab : a ≠ b := by simpa [List.nodup_cons] using hnd
      unfold weightRow
      simp only [List.length_cons, List.length_singleton, List.length_nil,
        List.getD_cons_zero, List.getD_cons_succ]
      rw [if_neg (by omega), if_pos (by omega), if_pos (by omega)]
      rw [sum_set_rat _ _ _ (by
        simp only [List.length_set, List.length_replicate]; exact hb)]
      rw [sum_set_rat _ _ _ (by simp only [List.length_replicate]; exact ha)]
      have h1 : (List.replicate n (0:ℚ)).getD a 0 = 0 := by
        rw [getD_replicate_split, if_pos ha]
      have h2 : ((List.replicate n (0:ℚ)).set a (1/2)).getD b 0 = 0 := by
        rw [getD_set_split, if_neg (by
            simp only [List.length_replicate]
            intro hcon
            exact hab hcon.1),
          getD_replicate_split, if_pos hb]
      rw [h1, h2]
      norm_num
  | a :: b :: c :: rest, hnd, hlt => by
      have ha : a < n := hlt a (by simp)
      have hb : b < n := hlt b (by simp)
      have hc : c < n := hlt c (by simp)
      simp only [List.nodup_cons, List.mem_cons, not_or] at hnd
      have hab : a ≠ b := hnd.1.1
      have hac : a ≠ c := hnd.1.2.1
      have hbc : b ≠ c := hnd.2.1.1
      unfold weightRow
      simp only [List.length_cons, List.getD_cons_zero, List.getD_cons_succ]
      rw [if_pos (by omega), if_pos (by omega), if_pos (by omega)]
      rw [sum_set_rat _ _ _ (by
        simp only [List.length_set, List.length_replicate]; exact hc)]
      rw [sum_set_rat _ _ _ (by
        simp only [List.length_set, List.length_replicate]; exact hb)]
      rw [sum_set_rat _ _ _ (by simp only [List.length_replicate]; exact ha)]
      have h1 : (List.replicate n (0:ℚ)).getD a 0 = 0 := by
        rw [getD_replicate_split, if_pos ha]
      have h2 : ((List.replicate n (0:ℚ)).set a (1/2)).getD b 0 = 0 := by
        rw [getD_set_split, if_neg (by
            simp only [List.length_replicate]
            intro hcon
            exact hab hcon.1),
          getD_replicate_split, if_pos hb]
      have h3 : (((List.replicate n (0:ℚ)).set a (1/2)).set b (1/4)).getD c 0 = 0 := by
        rw [getD_set_split, if_neg (by
            simp only [List.length_set, List.length_replicate]
            intro hcon
            exact hbc hcon.1),
          getD_set_split, if_neg (by
            simp only [List.length_replicate]
            intro hcon
            exact hac hcon.1),
          getD_replicate_split, if_pos hc]
      rw [h1, h2, h3]
      norm_num

theorem anchorRow_top3_facts (n : Nat) (prices : List (List (Option ℚ))) (a : Nat) :
    ((rankStocks n (prices.getD a [])).take 3).Nodup ∧
    (∀ t ∈ (rankStocks n (prices.getD a [])).take 3, t < n) ∧
    ((rankStocks n (prices.getD a [])).take 3).length = min 3 n := by
  refine ⟨(rankStocks_nodup n _).sublist (List.take_sublist _ _), ?_, ?_⟩
  · intro t ht
    have := (List.take_sublist 3 _).mem ht
    exact (rankStocks_mem n _ t).mp this
  · rw [List.length_take, rankStocks_length]

theorem anchorRow_sum_cases (n : Nat) (prices : List (List (Option ℚ))) (a : Nat) :
    (3 ≤ n → (anchorRow n prices a).sum = 1) ∧
    (n < 3 → (anchorRow n prices a).sum < 1) ∧
    (anchorRow n prices a).sum ≤ 1 := by
  obtain ⟨hnd, hlt, hlen⟩ := anchorRow_top3_facts n prices a
  have hsum := weightRow_sum n _ hnd hlt
  rw [hlen] at hsum
  unfold anchorRow
  constructor
  · intro h3
    rw [hsum, Nat.min_eq_left h3]
    norm_num
  constructor
  · intro h3
    rw [hsum]
    interval_cases n <;> norm_num
  · rw [hsum]
    rcases Nat.lt_or_ge n 3 with h | h
    · interval_cases n <;> norm_num
    · rw [Nat.min_eq_left h]
      norm_num

theorem calculate_weights_row_cases (n : Nat) (prices : List (List (Option ℚ)))
    (flags : List Bool) (i : Nat) (hi : i < prices.length) :
    (calculate_weights n prices flags).getD i [] = List.replicate n 0 ∨
    ∃ a, (calculate_weights n prices flags).getD i [] = anchorRow n prices a := by
  rw [calculate_weights_eq_fold]
  obtain ⟨_, hget⟩ := weights_fold_char n prices flags (anchors flags)
    (prices.map (fun _ => List.replicate n (0:ℚ))) (anchors_pairwise_ne flags)
  rw [hget i (by rw [List.length_map]; exact hi)]
  cases hfind : List.find? (fun b =>
      (cumsumFlags flags).getD b 0 == (cumsumFlags flags).getD i 0)
      (anchors flags) with
  | none =>
      left
      simp [List.getD_eq_getElem?_getD, List.getElem?_map, List.getElem?_replicate, hi]
  | some a => exact Or.inr ⟨a, rfl⟩

/-- C7 (amended): every weight is 0, 0.25 or 0.5 and every row sums to
at most 1.0; on a date governed by an anchor, the sum is exactly 1.0
iff the index holds at least 3 stocks *in total* — the code ranks
missing-price stocks too (they sort last), so fewer than 3 *defined*
prices still yields a full 1.0 as long as 3 stock columns exist. -/
theorem weights_values_spec (n : Nat) (prices : List (List (Option ℚ)))
    (flags : List Bool) (i : Nat) (hi : i < prices.length) :
    (∀ s, s < n →
      ((calculate_weights n prices flags).getD i []).getD s 0 = 0 ∨
      ((calculate_weights n prices flags).getD i []).getD s 0 = 1/4 ∨
      ((calculate_weights n prices flags).getD i []).getD s 0 = 1/2) ∧
    ((calculate_weights n prices flags).getD i []).sum ≤ 1 ∧
    (∀ a, a < flags.length → flags.getD a false = true →
      (cumsumFlags flags).getD a 0 = (cumsumFlags flags).getD i 0 →
      ((3 ≤ n → ((calculate_weights n prices flags).getD i []).sum = 1) ∧
       (n < 3 → ((calculate_weights n prices flags).getD i []).sum < 1))) := by
  refine ⟨?_, ?_, ?_⟩
  · intro s hs
    rcases calculate_weights_row_cases n prices flags i hi with h | ⟨a, h⟩
    · left
      rw [h, getD_replicate_split, if_pos hs]
    · rw [h]
      exact weightRow_getD_tiers n _ s
  · rcases calculate_weights_row_cases n prices flags i hi with h | ⟨a, h⟩
    · rw [h]
      simp
    · rw [h]
      exact (anchorRow_sum_cases n prices a).2.2
  · intro a ha hfa hP
    rw [calculate_weights_getD_anchor n prices flags a i ha hfa hi hP]
    exact ⟨(anchorRow_sum_cases n prices a).1, (anchorRow_sum_cases n prices a).2.1⟩

/-- Witness for C7 at a concrete input. -/
theorem weights_values_spec_witness :
    ((calculate_weights 3 [[some 1, some 2, some 3]] [true]).getD 0 []).sum = 1 := by
  have h := ((weights_values_spec 3 [[some 1, some 2, some 3]] [true] 0
    (by simp)).2.2 0 (by simp) rfl rfl).1 (by omega)
  exact h

/-- C7 counterexample: with 3 stock columns of which only 2 have a
defined price on the anchor date, the weights still sum to exactly 1.0
(the missing-price stock fills the third rank), where the claim
requires a sum strictly below 1.0. -/
theorem weights_sum_cex :
    (([some 10, some 20, none] : List (Option ℚ)).filter
      (fun c => c.isSome)).length = 2 ∧
    ((calculate_weights 3 [[some 10, some 20, none]] [true]).getD 0 []).sum = 1 := by
  constructor
  · decide
  · norm_num [calculate_weights, anchors, cumsumFlags, maskSet, anchorRow,
      weightRow, rankStocks, sortBy, insertBy, priceLe, List.range_succ,
      List.find?, List.filter, List.foldl, List.count, List.replicate,
      List.set_cons_zero, List.set_cons_succ, List.sum_cons]

/-! ## Rank-position lemmas (for C1) -/

/-- `t` strictly precedes `s` in the descending price order: `t` has a
defined price and either `s` has none or `t`'s is strictly greater. -/
def strictlyBetter (row : List (Option ℚ)) (t s : Nat) : Bool :=
  match row.getD t none, row.getD s none with
  | some a, some b => decide (b < a)
  | some _, none => true
  | none, _ => false

/-- The descending rank of stock `s` on `row`: how many stocks strictly
precede it. -/
def rankOf (n : Nat) (row : List (Option ℚ)) (s : Nat) : Nat :=
  ((List.range n).filter (fun t => strictlyBetter row t s)).length

theorem weightRow_getD_not_mem (n : Nat) (top3 : List Nat) (s : Nat)
    (hs : s < n) (hnm : s ∉ top3) :
    (weightRow n top3).getD s 0 = 0 := by
  have h0 : ∀ k, k < top3.length → ¬(top3.getD k 0 = s) := by
    intro k hk heq
    apply hnm
    rw [List.getD_eq_getElem?_getD, List.getElem?_eq_getElem hk] at heq
    rw [← heq]
    exact List.getElem_mem hk
  unfold weightRow
  split_ifs with h1 h2 h3 <;>
    (try rw [getD_set_split, if_neg (fun hcon => h0 _ (by omega) hcon.1)]) <;>
    (try rw [getD_set_split, if_neg (fun hcon => h0 _ (by omega) hcon.1)]) <;>
    (try rw [getD_set_split, if_neg (fun hcon => h0 _ (by omega) hcon.1)]) <;>
    rw [getD_replicate_split, if_pos hs]

theorem weightRow_getD_at (n : Nat) (top3 : List Nat) (s : Nat) (hs : s < n)
    (hnd : top3.Nodup) (hlen3 : top3.length ≤ 3) (k : Nat)
    (hk : k < top3.length) (hks : top3.getD k 0 = s) :
    (weightRow n top3).getD s 0 = if k = 0 then 1/2 else 1/4 := by
  match top3, hnd, hlen3, hk, hks with
  | [], _, _, hk, _ => simp at hk
  | [x], hnd, _, hk, hks =>
      have hk0 : k = 0 := by simp at hk; omega
      subst hk0
      simp only [List.getD_cons_zero] at hks
      subst hks
      unfold weightRow
      simp only [List.length_singleton, List.length_nil, List.length_cons,
        List.getD_cons_zero]
      rw [if_neg (by omega), if_neg (by omega), if_pos (by omega)]
      rw [getD_set_split, if_pos ⟨rfl, by simpa using hs⟩]
      simp
  | [x, y], hnd, _, hk, hks =>
      have hxy : x ≠ y := by simpa [List.nodup_cons] using hnd
      unfold weightRow
      simp only [List.length_cons, List.length_singleton, List.length_nil,
        List.getD_cons_zero, List.getD_cons_succ]
      rw [if_neg (by omega), if_pos (by omega), if_pos (by omega)]
      match k, hk, hks with
      | 0, _, hks =>
          simp only [List.getD_cons_zero] at hks
          subst hks
          rw [getD_set_split, if_neg (by
            simp only [List.length_set, List.length_replicate]
            intro hcon
            exact hxy hcon.1.symm)]
          rw [getD_set_split, if_pos ⟨rfl, by simpa using hs⟩]
          simp
      | 1, _, hks =>
          simp only [List.getD_cons_succ, List.getD_cons_zero] at hks
          subst hks
          rw [getD_set_split, if_pos ⟨rfl, by
            simp only [List.length_set, List.length_replicate]
            exact hs⟩]
          simp
  | [x, y, z], hnd, _, hk, hks =>
      simp only [List.nodup_cons, List.mem_cons, not_or] at hnd
      have hxy : x ≠ y := hnd.1.1
      have hxz : x ≠ z := hnd.1.2.1
      have hyz : y ≠ z := hnd.2.1.1
      unfold weightRow
      simp only [List.length_cons, List.length_singleton, List.length_nil,
        List.getD_cons_zero, List.getD_cons_succ]
      rw [if_pos (by omega), if_pos (by omega), if_pos (by omega)]
      match k, hk, hks with
      | 0, _, hks =>
          simp only [List.getD_cons_zero] at hks
          subst hks
          rw [getD_set_split, if_neg (by
            simp only [List.length_set, List.length_replicate]
            intro hcon
            exact hxz hcon.1.symm)]
          rw [getD_set_split, if_neg (by
            simp only [List.length_set, List.length_replicate]
            intro hcon
            exact hxy hcon.1.symm)]
          rw [getD_set_split, if_pos ⟨rfl, by simpa using hs⟩]
          simp
      | 1, _, hks =>
          simp only [List.getD_cons_succ, List.getD_cons_zero] at hks
          subst hks
          rw [getD_set_split, if_neg (by
            simp only [List.length_set, List.length_replicate]
            intro hcon
            exact hyz hcon.1.symm)]
          rw [getD_set_split, if_pos ⟨rfl, by
            simp only [List.length_set, List.length_replicate]
            exact hs⟩]
          simp
      | 2, _, hks =>
          simp only [List.getD_cons_succ, List.getD_cons_zero] at hks
          subst hks
          rw [getD_set_split, if_pos ⟨rfl, by
            simp only [List.length_set, List.length_replicate]
            exact hs⟩]
          simp
  | x :: y :: z :: w :: rest, _, hlen3, _, _ => simp at hlen3

theorem rank_split (n : Nat) (row : List (Option ℚ)) (s : Nat) (hs : s < n)
    (hdef : (row.getD s none).isSome = true)
    (hdist : ∀ t u, t < n → u < n → (row.getD t none).isSome = true →
      row.getD t none = row.getD u none → t = u) :
    ∃ l₁ l₂, rankStocks n row = l₁ ++ s :: l₂ ∧ l₁.length = rankOf n row s := by
  obtain ⟨b, hb⟩ := Option.isSome_iff_exists.mp hdef
  have hmem : s ∈ rankStocks n row := (rankStocks_mem n row s).mpr hs
  obtain ⟨l₁, l₂, hsplit⟩ := List.append_of_mem hmem
  refine ⟨l₁, l₂, hsplit, ?_⟩
  have hnd : (l₁ ++ s :: l₂).Nodup := by rw [← hsplit]; exact rankStocks_nodup n row
  have hs12 : s ∉ l₁ ++ l₂ := (List.nodup_cons.mp (List.nodup_middle.mp hnd)).1
  have hpw : (l₁ ++ s :: l₂).Pairwise (fun a b => priceLe row a b = true) := by
    rw [← hsplit]; exact rankStocks_pairwise n row
  rw [List.pairwise_append] at hpw
  obtain ⟨hpw1, hpw2, hpw12⟩ := hpw
  rw [List.pairwise_cons] at hpw2
  obtain ⟨hps, _⟩ := hpw2
  have hmem_all : ∀ t, t ∈ l₁ ++ s :: l₂ ↔ t < n := by
    intro t
    rw [← hsplit]
    exact rankStocks_mem n row t
  -- l₁ consists exactly of the strictly-better stocks
  have hchar : ∀ t, t ∈ l₁ ↔ (t ∈ List.range n ∧ strictlyBetter row t s = true) := by
    intro t
    constructor
    · intro ht
      have htn : t < n := (hmem_all t).mp (List.mem_append.mpr (Or.inl ht))
      have hts : t ≠ s := by
        intro h
        subst h
        exact hs12 (List.mem_append.mpr (Or.inl ht))
      have hle : priceLe row t s = true := hpw12 t ht s (by simp)
      refine ⟨List.mem_range.mpr htn, ?_⟩
      unfold priceLe at hle
      unfold strictlyBetter
      rw [hb] at hle ⊢
      cases hrt : row.getD t none with
      | none => rw [hrt] at hle; simp at hle
      | some a =>
          rw [hrt] at hle
          simp only [decide_eq_true_eq] at hle
          simp only [decide_eq_true_eq]
          rcases lt_or_eq_of_le hle with h | h
          · exact h
          · exact absurd (hdist t s htn hs (by rw [hrt]; rfl)
              (by rw [hrt, hb, h])) hts
    · rintro ⟨htr, hbet⟩
      have htn := List.mem_range.mp htr
      have hts : t ≠ s := by
        intro h
        subst h
        unfold strictlyBetter at hbet
        rw [hb] at hbet
        simp at hbet
      have htmem : t ∈ l₁ ++ s :: l₂ := (hmem_all t).mpr htn
      rcases List.mem_append.mp htmem with h1 | h2
      · exact h1
      · rcases List.mem_cons.mp h2 with h | h
        · exact absurd h hts
        · exfalso
          have hle := hps t h
          unfold strictlyBetter at hbet
          unfold priceLe at hle
          rw [hb] at hbet hle
          cases hrt : row.getD t none with
          | none => rw [hrt] at hbet; simp at hbet
          | some a =>
              rw [hrt] at hbet hle
              simp only [decide_eq_true_eq] at hbet hle
              exact absurd hle (not_le.mpr hbet)
  -- equal lengths via mutual subperm
  have hnd1 : l₁.Nodup := List.Nodup.of_append_left hnd
  have hndf : ((List.range n).filter (fun t => strictlyBetter row t s)).Nodup :=
    (List.nodup_range n).filter _
  have hsub1 : l₁ ⊆ (List.range n).filter (fun t => strictlyBetter row t s) := by
    intro t ht
    rw [List.mem_filter]
    exact (hchar t).mp ht
  have hsub2 : (List.range n).filter (fun t => strictlyBetter row t s) ⊆ l₁ := by
    intro t ht
    rw [List.mem_filter] at ht
    exact (hchar t).mpr ht
  have h1 := (hnd1.subperm hsub1).length_le
  have h2 := (hndf.subperm hsub2).length_le
  unfold rankOf
  omega

theorem rank_missing (n : Nat) (row : List (Option ℚ)) (s : Nat) (hs : s < n)
    (hmiss : row.getD s none = none)
    (hdefcount : 3 ≤ ((List.range n).filter
      (fun t => (row.getD t none).isSome)).length) :
    s ∉ (rankStocks n row).take 3 := by
  have hmem : s ∈ rankStocks n row := (rankStocks_mem n row s).mpr hs
  obtain ⟨l₁, l₂, hsplit⟩ := List.append_of_mem hmem
  have hnd : (l₁ ++ s :: l₂).Nodup := by rw [← hsplit]; exact rankStocks_nodup n row
  have hs12 : s ∉ l₁ ++ l₂ := (List.nodup_cons.mp (List.nodup_middle.mp hnd)).1
  have hpw : (l₁ ++ s :: l₂).Pairwise (fun a b => priceLe row a b = true) := by
    rw [← hsplit]; exact rankStocks_pairwise n row
  rw [List.pairwise_append] at hpw
  obtain ⟨_, hpw2, _⟩ := hpw
  rw [List.pairwise_cons] at hpw2
  obtain ⟨hps, _⟩ := hpw2
  have hmem_all : ∀ t, t ∈ l₁ ++ s :: l₂ ↔ t < n := by
    intro t
    rw [← hsplit]
    exact rankStocks_mem n row t
  -- every defined stock lands in l₁
  have hsubdef : (List.range n).filter (fun t => (row.getD t none).isSome) ⊆ l₁ := by
    intro t ht
    rw [List.mem_filter, List.mem_range] at ht
    obtain ⟨htn, htdef⟩ := ht
    obtain ⟨a, ha⟩ := Option.isSome_iff_exists.mp htdef
    have hts : t ≠ s := by
      intro h
      rw [h, hmiss] at ha
      exact Option.noConfusion ha
    have htmem : t ∈ l₁ ++ s :: l₂ := (hmem_all t).mpr htn
    rcases List.mem_append.mp htmem with h1 | h2
    · exact h1
    · rcases List.mem_cons.mp h2 with h | h
      · exact absurd h hts
      · exfalso
        have hle := hps t h
        unfold priceLe at hle
        rw [hmiss, ha] at hle
        simp at hle
  have hndf : ((List.range n).filter (fun t => (row.getD t none).isSome)).Nodup :=
    (List.nodup_range n).filter _
  have hl13 : 3 ≤ l₁.length := le_trans hdefcount (hndf.subperm hsubdef).length_le
  rw [hsplit, List.take_append_of_le_length hl13]
  intro hcon
  exact (fun h => hs12 (List.mem_append.mpr (Or.inl h)))
    ((List.take_sublist 3 l₁).mem hcon)

/-- C1 (amended): on the rows governed by an anchor date, a stock with a
defined anchor price receives 0.5 when no stock strictly outranks it,
0.25 at ranks 2 and 3, and 0 otherwise (assuming pairwise-distinct
defined prices, as tie order is implementation-defined); but a stock
with a *missing* anchor price is not excluded — it is only guaranteed
weight 0 when at least 3 stocks have defined prices, since missing
prices sort last yet still occupy leftover top-3 ranks. -/
theorem weights_rank_spec (n : Nat) (prices : List (List (Option ℚ)))
    (flags : List Bool) (a i : Nat)
    (ha : a < flags.length) (hfa : flags.getD a false = true)
    (hi : i < prices.length)
    (hP : (cumsumFlags flags).getD a 0 = (cumsumFlags flags).getD i 0)
    (hdist : ∀ t u, t < n → u < n →
      ((prices.getD a []).getD t none).isSome = true →
      (prices.getD a []).getD t none = (prices.getD a []).getD u none → t = u) :
    (∀ s, s < n → ((prices.getD a []).getD s none).isSome = true →
      ((calculate_weights n prices flags).getD i []).getD s 0 =
        (if rankOf n (prices.getD a []) s = 0 then 1/2
         else if rankOf n (prices.getD a []) s < 3 then 1/4 else 0)) ∧
    (∀ s, s < n → (prices.getD a []).getD s none = none →
      3 ≤ ((List.range n).filter
        (fun t => ((prices.getD a []).getD t none).isSome)).length →
      ((calculate_weights n prices flags).getD i []).getD s 0 = 0) := by
  rw [calculate_weights_getD_anchor n prices flags a i ha hfa hi hP]
  constructor
  · intro s hs hdef
    obtain ⟨l₁, l₂, hsplit, hlen⟩ :=
      rank_split n (prices.getD a []) s hs hdef hdist
    unfold anchorRow
    rw [hsplit]
    have hnd : (l₁ ++ s :: l₂).Nodup := by
      rw [← hsplit]; exact rankStocks_nodup n (prices.getD a [])
    by_cases hr3 : rankOf n (prices.getD a []) s < 3
    · -- s occupies one of the first three ranks
      have hk : l₁.length < ((l₁ ++ s :: l₂).take 3).length := by
        rw [List.length_take, List.length_append, List.length_cons]
        omega
      have hks : ((l₁ ++ s :: l₂).take 3).getD l₁.length 0 = s := by
        rw [List.getD_eq_getElem?_getD, List.getElem?_take_of_lt (by omega)]
        rw [← List.getD_eq_getElem?_getD,
          List.getD_append_right _ _ _ _ (le_refl _)]
        simp
      have := weightRow_getD_at n ((l₁ ++ s :: l₂).take 3) s hs
        (hnd.sublist (List.take_sublist _ _))
        (by rw [List.length_take]; omega) l₁.length hk hks
      rw [this, hlen]
      rcases Nat.eq_zero_or_pos (rankOf n (prices.getD a []) s) with h0 | h0
      · rw [if_pos h0, if_pos h0]
      · rw [if_neg (by omega), if_neg (by omega), if_pos hr3]
    · -- rank ≥ 3: s is not among the first three
      have hl13 : 3 ≤ l₁.length := by omega
      have hnm : s ∉ (l₁ ++ s :: l₂).take 3 := by
        rw [List.take_append_of_le_length hl13]
        have hs1 : s ∉ l₁ := by
          have := (List.nodup_cons.mp (List.nodup_middle.mp hnd)).1
          exact fun h => this (List.mem_append.mpr (Or.inl h))
        exact fun h => hs1 ((List.take_sublist 3 l₁).mem h)
      rw [weightRow_getD_not_mem n _ s hs hnm]
      rw [if_neg (by omega), if_neg (by omega)]
  · intro s hs hmiss hcount
    unfold anchorRow
    exact weightRow_getD_not_mem n _ s hs
      (rank_missing n (prices.getD a []) s hs hmiss hcount)

/-- Witness for C1 at a concrete input (the spec's 5-stock scenario). -/
theorem weights_rank_spec_witness :
    ((calculate_weights 5 [[some 10, some 20, some 30, some 40, some 50]]
      [true]).getD 0 []).getD 4 0 = 1/2 := by
  have h := (weights_rank_spec 5
    [[some 10, some 20, some 30, some 40, some 50]] [true] 0 0
    (by simp) rfl (by simp) rfl
    (by
      intro t u ht hu hdef heq
      interval_cases t <;> interval_cases u <;> revert heq <;> decide)).1
    4 (by omega) (by simp)
  rw [h]
  have hr : rankOf 5
      ([[some 10, some 20, some 30, some 40, some 50]].getD 0 []) 4 = 0 := by
    decide
  rw [hr]
  simp

/-- C1 counterexample: on an anchor date where stock 2's price is
missing (and the single date is its month's end-of-month anchor), the
missing-price stock is not excluded from the ranking: it receives
weight 0.25, not the 0 the claim requires. -/
theorem weights_rank_cex :
    (([some 10, some 20, none] : List (Option ℚ)).getD 2 none = none) ∧
    calculate_eom_flag [⟨2020,1,31⟩] = [true] ∧
    ((calculate_weights 3 [[some 10, some 20, none]] [true]).getD 0 []).getD 2 0
      = 1/4 := by
  refine ⟨rfl, by decide, ?_⟩
  norm_num [calculate_weights, anchors, cumsumFlags, maskSet, anchorRow,
    weightRow, rankStocks, sortBy, insertBy, priceLe, List.range_succ,
    List.find?, List.filter, List.foldl, List.count, List.replicate,
    List.set_cons_zero, List.set_cons_succ]

/-! ## Frame lemmas -/

theorem Frame.index_setCol (f : Frame) (c : ColName) (v : List FV) :
    (f.setCol c v).index = f.index := rfl

theorem find?_key_cons_pos (c' : ColName) (p : ColName × List FV)
    (t : List (ColName × List FV)) (h : (p.1 == c') = true) :
    (p :: t).find? (fun q => q.1 == c') = some p :=
  List.find?_cons_of_pos t h

theorem find?_key_cons_neg (c' : ColName) (p : ColName × List FV)
    (t : List (ColName × List FV)) (h : (p.1 == c') = false) :
    (p :: t).find? (fun q => q.1 == c') = t.find? (fun q => q.1 == c') :=
  List.find?_cons_of_neg t (by rw [h]; simp)

theorem find?_map_replace_ne (c c' : ColName) (v : List FV) (h : c' ≠ c) :
    ∀ (cols : List (ColName × List FV)),
    (cols.map (fun p => if p.1 == c then (c, v) else p)).find?
        (fun p => p.1 == c') =
      cols.find? (fun p => p.1 == c') := by
  intro cols
  induction cols with
  | nil => rfl
  | cons p t ih =>
      rw [List.map_cons]
      by_cases hpc : (p.1 == c) = true
      · rw [if_pos hpc]
        rw [beq_iff_eq] at hpc
        have h1 : ((c, v).1 == c') = false := by
          simp only [beq_eq_false_iff_ne]
          exact fun hcc => h hcc.symm
        have h2 : (p.1 == c') = false := by
          simp only [beq_eq_false_iff_ne]
          rw [hpc]
          exact fun hcc => h hcc.symm
        rw [find?_key_cons_neg c' (c, v) _ h1, find?_key_cons_neg c' p t h2]
        exact ih
      · rw [if_neg hpc]
        by_cases hp' : (p.1 == c') = true
        · rw [find?_key_cons_pos c' p _ hp', find?_key_cons_pos c' p t hp']
        · rw [find?_key_cons_neg c' p _ (by simpa using hp'),
            find?_key_cons_neg c' p t (by simpa using hp')]
          exact ih

theorem find?_append_single_ne (c c' : ColName) (v : List FV) (h : c' ≠ c) :
    ∀ (cols : List (ColName × List FV)),
    (cols ++ [(c, v)]).find? (fun p => p.1 == c') =
      cols.find? (fun p => p.1 == c') := by
  intro cols
  induction cols with
  | nil =>
      rw [List.nil_append]
      rw [find?_key_cons_neg c' (c, v) [] (by
        simp only [beq_eq_false_iff_ne]
        exact fun hcc => h hcc.symm)]
  | cons p t ih =>
      rw [List.cons_append]
      by_cases hp' : (p.1 == c') = true
      · rw [find?_key_cons_pos c' p _ hp', find?_key_cons_pos c' p t hp']
      · rw [find?_key_cons_neg c' p _ (by simpa using hp'),
          find?_key_cons_neg c' p t (by simpa using hp')]
        exact ih

theorem findCol_setCol_ne (f : Frame) (c c' : ColName) (v : List FV)
    (h : c' ≠ c) : (f.setCol c v).findCol c' = f.findCol c' := by
  unfold Frame.setCol Frame.findCol
  by_cases hex : (f.cols.find? (fun p => p.1 == c)).isSome
  · rw [if_pos hex]
    dsimp only
    rw [find?_map_replace_ne c c' v h]
  · rw [if_neg hex]
    dsimp only
    rw [find?_append_single_ne c c' v h]

theorem find?_map_replace_self (c : ColName) (v : List FV) :
    ∀ (cols : List (ColName × List FV)),
    (cols.find? (fun p => p.1 == c)).isSome = true →
    (cols.map (fun p => if p.1 == c then (c, v) else p)).find?
        (fun p => p.1 == c) = some (c, v) := by
  intro cols
  induction cols with
  | nil => intro h; simp at h
  | cons p t ih =>
      intro hex
      rw [List.map_cons]
      by_cases hpc : (p.1 == c) = true
      · rw [if_pos hpc]
        rw [find?_key_cons_pos c (c, v) _ (by simp)]
      · rw [if_neg hpc]
        rw [find?_key_cons_neg c p _ (by simpa using hpc)]
        apply ih
        rw [find?_key_cons_neg c p t (by simpa using hpc)] at hex
        exact hex

theorem findCol_setCol_self (f : Frame) (c : ColName) (v : List FV) :
    (f.setCol c v).findCol c = some v := by
  unfold Frame.setCol Frame.findCol
  by_cases hex : (f.cols.find? (fun p => p.1 == c)).isSome
  · rw [if_pos hex]
    dsimp only
    rw [find?_map_replace_self c v f.cols hex]
    rfl
  · rw [if_neg hex]
    dsimp only
    have haux : ∀ (cols : List (ColName × List FV)),
        (cols.find? (fun p => p.1 == c)).isSome = false →
        (cols ++ [(c, v)]).find? (fun p => p.1 == c) = some (c, v) := by
      intro cols
      induction cols with
      | nil =>
          intro _
          rw [List.nil_append, find?_key_cons_pos c (c, v) [] (by simp)]
      | cons p t ih =>
          intro hnone
          rw [List.cons_append]
          by_cases hpc : (p.1 == c) = true
          · rw [find?_key_cons_pos c p t hpc] at hnone
            simp at hnone
          · rw [find?_key_cons_neg c p _ (by simpa using hpc)]
            apply ih
            rw [find?_key_cons_neg c p t (by simpa using hpc)] at hnone
            exact hnone
    rw [haux f.cols (Bool.eq_false_iff.mpr hex)]
    rfl

theorem readCell_eq_none_iff (df : Frame) (c : ColName) (k : Nat) :
    readCell df c k = none ↔ df.findCol c = none := by
  unfold readCell
  cases df.findCol c <;> simp

theorem mapM_readCell_none (df : Frame) (k : Nat) :
    ∀ (cols : List ColName) (c : ColName), c ∈ cols → df.findCol c = none →
    cols.mapM (fun c => readCell df c k) = none := by
  intro cols
  induction cols with
  | nil => intro c hc; simp at hc
  | cons d t ih =>
      intro c hc hnone
      rw [List.mapM_cons]
      rcases List.mem_cons.mp hc with rfl | hc'
      · rw [(readCell_eq_none_iff df c k).mpr hnone]
        rfl
      · cases hd : readCell df d k with
        | none => rfl
        | some v =>
            rw [ih c hc' hnone]
            rfl

theorem mapM_readCell_some (df : Frame) (k : Nat) :
    ∀ (cols : List ColName), (∀ c ∈ cols, (df.findCol c).isSome = true) →
    ∃ vs, cols.mapM (fun c => readCell df c k) = some vs := by
  intro cols
  induction cols with
  | nil => intro _; exact ⟨[], rfl⟩
  | cons d t ih =>
      intro hall
      obtain ⟨v, hv⟩ := Option.isSome_iff_exists.mp (hall d (by simp))
      obtain ⟨vs, hvs⟩ := ih (fun c hc => hall c (by simp [hc]))
      refine ⟨(v.getD k FV.nan) :: vs, ?_⟩
      have hcell : readCell df d k = some (v.getD k FV.nan) := by
        unfold readCell
        rw [hv]
        rfl
      rw [List.mapM_cons, hcell, hvs]
      rfl

theorem calculate_index_return_frame_eq (df : Frame) (stocks : List String) :
    calculate_index_return_frame df stocks =
      match (stocks.map ColName.ret).find? (fun c =>
          ((df.setCol .indexReturn
            (List.replicate df.index.length (FV.num 0))).findCol c).isNone) with
      | some c => .error (.keyError ("Column " ++ c.str ++
          " not found in DataFrame. Calculate daily returns first."))
      | none =>
          match irLoopCol (df.setCol .indexReturn
              (List.replicate df.index.length (FV.num 0))) stocks
              (List.range' 2 (df.index.length - 2))
              (List.replicate df.index.length (FV.num 0)) with
          | .error e => .error e
          | .ok col => .ok ((df.setCol .indexReturn
              (List.replicate df.index.length (FV.num 0))).setCol .indexReturn
              (setFirstTwoZero col)) := rfl

/-- C8 (amended): a missing per-stock *return* column always raises the
labelled "Calculate daily returns first" KeyError; but missing *weight*
columns are not checked up front — they only raise the plain pandas
KeyError when the T-2 loop actually runs, i.e. when the calendar has at
least 3 dates.  With 2 or fewer dates the aggregation silently succeeds
even though the weight series are absent. -/
theorem index_return_missing_deps_spec (df : Frame) (stocks : List String) :
    ((∃ s, s ∈ stocks ∧ df.findCol (.ret s) = none) →
      ∃ c : ColName, calculate_index_return_frame df stocks =
        .error (.keyError ("Column " ++ c.str ++
          " not found in DataFrame. Calculate daily returns first."))) ∧
    ((∀ s, s ∈ stocks → (df.findCol (.ret s)).isSome = true) →
      (∃ s, s ∈ stocks ∧ df.findCol (.weight s) = none) →
      3 ≤ df.index.length →
      calculate_index_return_frame df stocks =
        .error (.keyError "not in index")) ∧
    ((∀ s, s ∈ stocks → (df.findCol (.ret s)).isSome = true) →
      df.index.length ≤ 2 →
      ∃ df', calculate_index_return_frame df stocks = .ok df') := by
  have hretne : ∀ s : String, (ColName.ret s) ≠ ColName.indexReturn := by
    intro s h
    exact ColName.noConfusion h
  have hwne : ∀ s : String, (ColName.weight s) ≠ ColName.indexReturn := by
    intro s h
    exact ColName.noConfusion h
  have hret : ∀ s : String,
      ((df.setCol .indexReturn
        (List.replicate df.index.length (FV.num 0))).findCol (.ret s)) =
        df.findCol (.ret s) :=
    fun s => findCol_setCol_ne df .indexReturn (.ret s) _ (hretne s)
  have hw : ∀ s : String,
      ((df.setCol .indexReturn
        (List.replicate df.index.length (FV.num 0))).findCol (.weight s)) =
        df.findCol (.weight s) :=
    fun s => findCol_setCol_ne df .indexReturn (.weight s) _ (hwne s)
  refine ⟨?_, ?_, ?_⟩
  · rintro ⟨s, hsmem, hsnone⟩
    have hsome : ((stocks.map ColName.ret).find? (fun c =>
        ((df.setCol .indexReturn
          (List.replicate df.index.length (FV.num 0))).findCol c).isNone)).isSome := by
      rw [List.find?_isSome]
      refine ⟨.ret s, List.mem_map_of_mem _ hsmem, ?_⟩
      rw [hret s, hsnone]
      rfl
    obtain ⟨c, hc⟩ := Option.isSome_iff_exists.mp hsome
    refine ⟨c, ?_⟩
    rw [calculate_index_return_frame_eq, hc]
  · intro hall ⟨s, hsmem, hsnone⟩ hlen
    have hnone : ((stocks.map ColName.ret).find? (fun c =>
        ((df.setCol .indexReturn
          (List.replicate df.index.length (FV.num 0))).findCol c).isNone)) = none := by
      rw [List.find?_eq_none]
      intro c hcmem
      obtain ⟨t, htmem, rfl⟩ := List.mem_map.mp hcmem
      obtain ⟨v, hv⟩ := Option.isSome_iff_exists.mp (hall t htmem)
      rw [hret t, hv]
      simp
    rw [calculate_index_return_frame_eq, hnone]
    have hr2 : df.index.length - 2 = (df.index.length - 3) + 1 := by omega
    rw [hr2, List.range'_succ]
    rw [irLoopCol]
    have hwnone : ((stocks.map ColName.weight).mapM (fun c =>
        readCell (df.setCol .indexReturn
          (List.replicate df.index.length (FV.num 0))) c (2 - 2))) = none := by
      apply mapM_readCell_none _ _ _ (ColName.weight s)
        (List.mem_map_of_mem _ hsmem)
      rw [hw s]
      exact hsnone
    rw [hwnone]
  · intro hall hlen
    have hnone : ((stocks.map ColName.ret).find? (fun c =>
        ((df.setCol .indexReturn
          (List.replicate df.index.length (FV.num 0))).findCol c).isNone)) = none := by
      rw [List.find?_eq_none]
      intro c hcmem
      obtain ⟨t, htmem, rfl⟩ := List.mem_map.mp hcmem
      obtain ⟨v, hv⟩ := Option.isSome_iff_exists.mp (hall t htmem)
      rw [hret t, hv]
      simp
    have hr0 : df.index.length - 2 = 0 := by omega
    refine ⟨(df.setCol .indexReturn
      (List.replicate df.index.length (FV.num 0))).setCol .indexReturn
      (setFirstTwoZero (List.replicate df.index.length (FV.num 0))), ?_⟩
    rw [calculate_index_return_frame_eq, hnone, hr0, List.range'_zero]
    rw [irLoopCol]

/-- Witness for C8 at a concrete input (missing return column). -/
theorem index_return_missing_deps_spec_witness :
    ∃ c : ColName, calculate_index_return_frame ⟨[⟨2020,1,1⟩], []⟩ ["Stock_A"] =
      .error (.keyError ("Column " ++ c.str ++
        " not found in DataFrame. Calculate daily returns first.")) :=
  (index_return_missing_deps_spec ⟨[⟨2020,1,1⟩], []⟩ ["Stock_A"]).1
    ⟨"Stock_A", by simp, rfl⟩

/-- C8 counterexample: with a 2-date calendar, a present return column
and an *absent* weight column, the aggregation silently succeeds
instead of raising the data-dependency error the claim requires. -/
theorem index_return_missing_deps_cex :
    (Frame.mk [⟨2020,1,1⟩, ⟨2020,1,2⟩]
        [(.ret "Stock_A", [FV.num 0, FV.num 0])]).findCol (.weight "Stock_A")
      = none ∧
    ∃ df', calculate_index_return_frame
      (Frame.mk [⟨2020,1,1⟩, ⟨2020,1,2⟩]
        [(.ret "Stock_A", [FV.num 0, FV.num 0])]) ["Stock_A"] = .ok df' := by
  exact ⟨rfl, ⟨_, rfl⟩⟩

/-! ## Congruence lemmas for the second pipeline run (C9) -/

theorem find?_congr_pred {α : Type} (p q : α → Bool) :
    ∀ (l : List α), (∀ x ∈ l, p x = q x) → l.find? p = l.find? q := by
  intro l
  induction l with
  | nil => intro _; rfl
  | cons x t ih =>
      intro h
      by_cases hx : p x = true
      · rw [List.find?_cons_of_pos t hx,
          List.find?_cons_of_pos t (by rw [← h x (by simp)]; exact hx)]
      · rw [List.find?_cons_of_neg t hx,
          List.find?_cons_of_neg t (by rw [← h x (by simp)]; exact hx)]
        exact ih (fun y hy => h y (by simp [hy]))

theorem mapM_readCell_congr (dfX dfY : Frame) (k : Nat) :
    ∀ (cols : List ColName), (∀ c ∈ cols, dfX.findCol c = dfY.findCol c) →
    cols.mapM (fun c => readCell dfX c k) =
      cols.mapM (fun c => readCell dfY c k) := by
  intro cols
  induction cols with
  | nil => intro _; rfl
  | cons d t ih =>
      intro h
      rw [List.mapM_cons, List.mapM_cons]
      have hd : readCell dfX d k = readCell dfY d k := by
        unfold readCell
        rw [h d (by simp)]
      rw [hd, ih (fun c hc => h c (by simp [hc]))]

theorem irLoopCol_congr (dfX dfY : Frame) (stocks : List String)
    (hw : ∀ s ∈ stocks, dfX.findCol (.weight s) = dfY.findCol (.weight s))
    (hr : ∀ s ∈ stocks, dfX.findCol (.ret s) = dfY.findCol (.ret s)) :
    ∀ (l : List Nat) (col : List FV),
    irLoopCol dfX stocks l col = irLoopCol dfY stocks l col := by
  intro l
  induction l with
  | nil => intro col; rfl
  | cons i rest ih =>
      intro col
      rw [irLoopCol, irLoopCol]
      have h1 : (stocks.map ColName.weight).mapM
          (fun c => readCell dfX c (i - 2)) =
          (stocks.map ColName.weight).mapM (fun c => readCell dfY c (i - 2)) := by
        apply mapM_readCell_congr
        intro c hc
        obtain ⟨s, hs, rfl⟩ := List.mem_map.mp hc
        exact hw s hs
      have h2 : (stocks.map ColName.ret).mapM (fun c => readCell dfX c i) =
          (stocks.map ColName.ret).mapM (fun c => readCell dfY c i) := by
        apply mapM_readCell_congr
        intro c hc
        obtain ⟨s, hs, rfl⟩ := List.mem_map.mp hc
        exact hr s hs
      rw [h1, h2]
      cases (stocks.map ColName.weight).mapM (fun c => readCell dfY c (i - 2)) with
      | none => rfl
      | some ws =>
          cases (stocks.map ColName.ret).mapM (fun c => readCell dfY c i) with
          | none => rfl
          | some rs => exact ih _

theorem calculate_index_level_frame_eq (df : Frame) (sd : Option Date) :
    calculate_index_level_frame df sd =
      match df.findCol .indexReturn with
      | none => .error (.keyError "Index_Return")
      | some ret =>
          .ok (df.setCol .indexLevel (calculate_index_level df.index ret sd)) := rfl

theorem calc_index_level_eq (df : Frame) (stocks : List String) (sd ed : Date) :
    calc_index_level df stocks sd ed =
      match calculate_index_return_frame df stocks with
      | .error e => .error e
      | .ok df1 =>
          match calculate_index_level_frame df1 (some sd) with
          | .error e => .error e
          | .ok df2 =>
              .ok (df2, sliceLevels df2.index
                ((df2.findCol .indexLevel).getD []) sd ed) := rfl

/-- C9: re-invoking `calc_index_level` on the frame produced by a first
successful invocation (which mutated `self.df` by adding/overwriting
the `Index_Return` and `Index_Level` columns) returns exactly the same
result series. -/
theorem calc_index_level_idempotent (df : Frame) (stocks : List String)
    (sd ed : Date) (f1 : Frame) (r1 : List (Date × FV))
    (h : calc_index_level df stocks sd ed = .ok (f1, r1)) :
    ∃ f2, calc_index_level f1 stocks sd ed = .ok (f2, r1) := by
  rw [calc_index_level_eq] at h
  cases hA : calculate_index_return_frame df stocks with
  | error e => rw [hA] at h; simp at h
  | ok dfA =>
      rw [hA] at h
      rw [calculate_index_return_frame_eq] at hA
      cases hfind : (stocks.map ColName.ret).find? (fun c =>
          ((df.setCol .indexReturn
            (List.replicate df.index.length (FV.num 0))).findCol c).isNone) with
      | some c => rw [hfind] at hA; simp at hA
      | none =>
          rw [hfind] at hA
          cases hloop : irLoopCol (df.setCol .indexReturn
              (List.replicate df.index.length (FV.num 0))) stocks
              (List.range' 2 (df.index.length - 2))
              (List.replicate df.index.length (FV.num 0)) with
          | error e => rw [hloop] at hA; simp at hA
          | ok col =>
              rw [hloop] at hA
              simp only [Except.ok.injEq] at hA
              subst hA
              dsimp only at h
              rw [calculate_index_level_frame_eq, findCol_setCol_self] at h
              simp only [Except.ok.injEq, Prod.mk.injEq] at h
              obtain ⟨hf1, hr1⟩ := h
              subst hf1
              subst hr1
              -- second invocation
              have hretne : ∀ s : String,
                  (ColName.ret s) ≠ ColName.indexReturn :=
                fun s hcc => ColName.noConfusion hcc
              have hwne : ∀ s : String,
                  (ColName.weight s) ≠ ColName.indexReturn :=
                fun s hcc => ColName.noConfusion hcc
              have hretne2 : ∀ s : String,
                  (ColName.ret s) ≠ ColName.indexLevel :=
                fun s hcc => ColName.noConfusion hcc
              have hwne2 : ∀ s : String,
                  (ColName.weight s) ≠ ColName.indexLevel :=
                fun s hcc => ColName.noConfusion hcc
              rw [calc_index_level_eq, calculate_index_return_frame_eq]
              simp only [Frame.index_setCol]
              have hchain : ∀ c : ColName, c ≠ ColName.indexReturn →
                  c ≠ ColName.indexLevel →
                  ∀ v : List FV,
                  (((((df.setCol .indexReturn
                      (List.replicate df.index.length (FV.num 0))).setCol
                      .indexReturn (setFirstTwoZero col)).setCol .indexLevel
                      (calculate_index_level df.index (setFirstTwoZero col)
                        (some sd))).setCol .indexReturn v).findCol c) =
                    ((df.setCol .indexReturn
                      (List.replicate df.index.length (FV.num 0))).findCol c) := by
                intro c hc1 hc2 v
                rw [findCol_setCol_ne _ _ _ _ hc1, findCol_setCol_ne _ _ _ _ hc2,
                  findCol_setCol_ne _ _ _ _ hc1]
              have hfind2 : (stocks.map ColName.ret).find? (fun c =>
                  ((((((df.setCol .indexReturn
                    (List.replicate df.index.length (FV.num 0))).setCol
                    .indexReturn (setFirstTwoZero col)).setCol .indexLevel
                    (calculate_index_level df.index (setFirstTwoZero col)
                      (some sd))).setCol .indexReturn
                    (List.replicate df.index.length (FV.num 0))).findCol c).isNone))
                  = none := by
                rw [find?_congr_pred _ (fun c =>
                  (((df.setCol .indexReturn
                    (List.replicate df.index.length (FV.num 0))).findCol c).isNone))
                  _ ?_]
                · exact hfind
                · intro c hcmem
                  obtain ⟨t, _, rfl⟩ := List.mem_map.mp hcmem
                  rw [hchain _ (hretne t) (hretne2 t)]
              rw [hfind2]
              have hloop2 : irLoopCol ((((df.setCol .indexReturn
                  (List.replicate df.index.length (FV.num 0))).setCol
                  .indexReturn (setFirstTwoZero col)).setCol .indexLevel
                  (calculate_index_level df.index (setFirstTwoZero col)
                    (some sd))).setCol .indexReturn
                  (List.replicate df.index.length (FV.num 0))) stocks
                  (List.range' 2 (df.index.length - 2))
                  (List.replicate df.index.length (FV.num 0)) =
                  Except.ok col := by
                rw [irLoopCol_congr _ (df.setCol .indexReturn
                    (List.replicate df.index.length (FV.num 0))) stocks
                  (fun s hs => hchain _ (hwne s) (hwne2 s) _)
                  (fun s hs => hchain _ (hretne s) (hretne2 s) _)]
                exact hloop
              rw [hloop2]
              dsimp only
              simp only [calculate_index_level_frame_eq, findCol_setCol_self,
                Frame.index_setCol, Option.getD_some]
              exact ⟨_, rfl⟩

/-- C9 witness: on a concrete one-date frame the first invocation
succeeds, and the idempotence theorem applies to its output. -/
theorem calc_index_level_idempotent_witness :
    calc_index_level (Frame.mk [⟨2020, 1, 1⟩] [(ColName.ret "A", [FV.num 0])])
        ["A"] ⟨2020, 1, 1⟩ ⟨2020, 1, 1⟩ =
      .ok (Frame.mk [⟨2020, 1, 1⟩]
        [(ColName.ret "A", [FV.num 0]), (ColName.indexReturn, [FV.num 0]),
          (ColName.indexLevel, [FV.num 100])],
        [(⟨2020, 1, 1⟩, FV.num 100)]) ∧
    ∃ f2, calc_index_level (Frame.mk [⟨2020, 1, 1⟩]
        [(ColName.ret "A", [FV.num 0]), (ColName.indexReturn, [FV.num 0]),
          (ColName.indexLevel, [FV.num 100])])
        ["A"] ⟨2020, 1, 1⟩ ⟨2020, 1, 1⟩ =
      .ok (f2, [(⟨2020, 1, 1⟩, FV.num 100)]) :=
  ⟨rfl, calc_index_level_idempotent
    (Frame.mk [⟨2020, 1, 1⟩] [(ColName.ret "A", [FV.num 0])])
    ["A"] ⟨2020, 1, 1⟩ ⟨2020, 1, 1⟩ _ _ rfl⟩

theorem heap_copy_preserves (h : Heap) (x y : Frame) (r : Nat)
    (hr : r < h.length) :
    ((h ++ [x]).set h.length y).getD r default = h.getD r default := by
  have hne : h.length ≠ r := Nat.ne_of_gt hr
  rw [List.getD_eq_getElem?_getD, List.getElem?_set_ne hne,
    List.getElem?_append_left hr, List.getD_eq_getElem?_getD]

/-- C10: every utility leaves the caller's frame object untouched — it
deep-copies the input (`df = df.copy()`), mutates only the copy, and
hands back a reference to a fresh object distinct from the input. -/
theorem utils_preserve_input (h : Heap) (r : Nat) (stocks : List String)
    (sd : Option Date) (hr : r < h.length) :
    (((calculate_eom_flag_h h r).1.getD r default = h.getD r default) ∧
      (calculate_eom_flag_h h r).2 ≠ r) ∧
    (((calculate_daily_returns_h h r stocks).1.getD r default =
        h.getD r default) ∧
      (calculate_daily_returns_h h r stocks).2 ≠ r) ∧
    (∀ h2 r2, calculate_index_return_h h r stocks = .ok (h2, r2) →
      h2.getD r default = h.getD r default ∧ r2 ≠ r) ∧
    (∀ h2 r2, calculate_index_level_h h r sd = .ok (h2, r2) →
      h2.getD r default = h.getD r default ∧ r2 ≠ r) := by
  have hlen : h.length ≠ r := Nat.ne_of_gt hr
  refine ⟨⟨?_, ?_⟩, ⟨?_, ?_⟩, ?_, ?_⟩
  · exact heap_copy_preserves h _ _ r hr
  · exact hlen
  · exact heap_copy_preserves h _ _ r hr
  · exact hlen
  · intro h2 r2 hok
    simp only [calculate_index_return_h] at hok
    cases hA : calculate_index_return_frame (h.getD r default) stocks with
    | error e => rw [hA] at hok; simp at hok
    | ok df2 =>
        rw [hA] at hok
        simp only [Except.ok.injEq, Prod.mk.injEq] at hok
        obtain ⟨hh2, hr2⟩ := hok
        subst hh2
        subst hr2
        exact ⟨heap_copy_preserves h _ _ r hr, hlen⟩
  · intro h2 r2 hok
    simp only [calculate_index_level_h] at hok
    cases hA : calculate_index_level_frame (h.getD r default) sd with
    | error e => rw [hA] at hok; simp at hok
    | ok df2 =>
        rw [hA] at hok
        simp only [Except.ok.injEq, Prod.mk.injEq] at hok
        obtain ⟨hh2, hr2⟩ := hok
        subst hh2
        subst hr2
        exact ⟨heap_copy_preserves h _ _ r hr, hlen⟩

/-- C10 witness: the preservation theorem instantiated on a concrete
one-frame heap on which all four utilities run (the two fallible ones
succeed, so their implications are not vacuous). -/
theorem utils_preserve_input_witness :
    (∃ p, calculate_index_return_h
      [Frame.mk [⟨2020, 1, 1⟩] [(ColName.indexReturn, [FV.num 0])]] 0 [] =
        .ok p) ∧
    (∃ p, calculate_index_level_h
      [Frame.mk [⟨2020, 1, 1⟩] [(ColName.indexReturn, [FV.num 0])]] 0 none =
        .ok p) ∧
    0 < ([Frame.mk [⟨2020, 1, 1⟩] [(ColName.indexReturn, [FV.num 0])]] :
      Heap).length ∧
    ((((calculate_eom_flag_h
        [Frame.mk [⟨2020, 1, 1⟩] [(ColName.indexReturn, [FV.num 0])]] 0).1.getD
          0 default =
        ([Frame.mk [⟨2020, 1, 1⟩] [(ColName.indexReturn, [FV.num 0])]] :
          Heap).getD 0 default) ∧
      (calculate_eom_flag_h
        [Frame.mk [⟨2020, 1, 1⟩] [(ColName.indexReturn, [FV.num 0])]] 0).2 ≠ 0) ∧
    (((calculate_daily_returns_h
        [Frame.mk [⟨2020, 1, 1⟩] [(ColName.indexReturn, [FV.num 0])]] 0 []).1.getD
          0 default =
        ([Frame.mk [⟨2020, 1, 1⟩] [(ColName.indexReturn, [FV.num 0])]] :
          Heap).getD 0 default) ∧
      (calculate_daily_returns_h
        [Frame.mk [⟨2020, 1, 1⟩] [(ColName.indexReturn, [FV.num 0])]] 0 []).2
        ≠ 0) ∧
    (∀ h2 r2, calculate_index_return_h
        [Frame.mk [⟨2020, 1, 1⟩] [(ColName.indexReturn, [FV.num 0])]] 0 [] =
          .ok (h2, r2) →
      h2.getD 0 default =
        ([Frame.mk [⟨2020, 1, 1⟩] [(ColName.indexReturn, [FV.num 0])]] :
          Heap).getD 0 default ∧ r2 ≠ 0) ∧
    (∀ h2 r2, calculate_index_level_h
        [Frame.mk [⟨2020, 1, 1⟩] [(ColName.indexReturn, [FV.num 0])]] 0 none =
          .ok (h2, r2) →
      h2.getD 0 default =
        ([Frame.mk [⟨2020, 1, 1⟩] [(ColName.indexReturn, [FV.num 0])]] :
          Heap).getD 0 default ∧ r2 ≠ 0)) :=
  ⟨⟨_, rfl⟩, ⟨_, rfl⟩, by decide,
    utils_preserve_input
      [Frame.mk [⟨2020, 1, 1⟩] [(ColName.indexReturn, [FV.num 0])]] 0 [] none
      (by decide)⟩
